import Mathlib

/-!
Verification of the ere-rs automata core (crates/automata/src/lib.rs,
crates/automata/src/nfa.rs and the older copy src/automaton/mod.rs)
against its natural-language specification.

The embedding is executable: Rust loops that might, in principle, diverge are
modelled with an explicit fuel parameter; loops whose termination we prove get
a concrete fuel that is shown to be sufficient.  Rust BTreeMap values are
modelled as association lists, BTreeSet values as lists with set semantics.
-/

namespace Ere

/-- The largest Unicode code point, 0x10ffff. -/
def maxScalar : Nat := 0x10ffff

/-- Valid Unicode scalars exclude the surrogate block 0xd800 - 0xdfff. -/
def validScalar (c : Nat) : Bool :=
  decide (c ≤ 0xd7ff) || (decide (0xe000 ≤ c) && decide (c ≤ maxScalar))

/-- A character range, mirroring an inclusive AnyRange over char:
first component is the lower bound, second the upper bound. -/
abbrev CharRange := Nat × Nat

/-- Containment of a scalar in an inclusive range. -/
def inRange (c : Nat) (r : CharRange) : Bool := decide (r.1 ≤ c) && decide (c ≤ r.2)

/-- A character set, mirroring a RangeSet over char: a list of inclusive
ranges.  The library keeps the list canonical (sorted, disjoint, coalesced);
we track that invariant separately with canonicalChk. -/
abbrev CharSet := List CharRange

/-- Membership of a scalar in a character set. -/
def memCS (c : Nat) (s : CharSet) : Bool := s.any (inRange c)

/-- The canonical invariant of a range set, from the spec (section 3):
ranges are sorted, nonempty, pairwise disjoint and non-adjacent; the
parameter is a lower bound for the next admissible range start. -/
def canonicalChk : Nat → CharSet → Bool
  | _, [] => true
  | lo, r :: rest => decide (lo ≤ r.1) && decide (r.1 ≤ r.2) && canonicalChk (r.2 + 2) rest

/-- any_char from lib.rs: the universe set, built by inserting the ranges
[0, 0xd7ff] and [0xe000, 0x10ffff] into an empty range set. -/
def any_char : CharSet := [(0, 0xd7ff), (0xe000, maxScalar)]

/-- Modelled from the spec (sections 3 and 4.1): the gaps operation of the
external btree-range-map crate returns the complement of a canonical range
set relative to the universe of code points.  The parameter is the start of
the still-uncovered prefix of the universe. -/
def gapsFrom (lo : Nat) : CharSet → CharSet
  | [] => if lo ≤ maxScalar then [(lo, maxScalar)] else []
  | r :: rest => (if lo < r.1 then [(lo, r.1 - 1)] else []) ++ gapsFrom (r.2 + 1) rest

/-- Modelled from the spec (section 3): removing a range from a range set
(the remove operation of the external btree-range-map crate); every stored
range keeps exactly its parts lying outside the removed range. -/
def removeRange (s : CharSet) (r : CharRange) : CharSet :=
  s.flatMap fun ab =>
    (if ab.1 < r.1 then [(ab.1, min ab.2 (r.1 - 1))] else []) ++
    (if r.2 < ab.2 then [(max ab.1 (r.2 + 1), ab.2)] else [])

/-- charset_intersection from lib.rs: clone a, then remove every gap of b. -/
def charset_intersection (a b : CharSet) : CharSet := (gapsFrom 0 b).foldl removeRange a

lemma memCS_iff {c : Nat} {s : CharSet} :
    memCS c s = true ↔ ∃ r ∈ s, inRange c r = true := by
  simp [memCS, List.any_eq_true]

lemma inRange_iff {c : Nat} {r : CharRange} :
    inRange c r = true ↔ r.1 ≤ c ∧ c ≤ r.2 := by
  simp [inRange]

lemma inRange_mk {c a b : Nat} : inRange c (a, b) = true ↔ a ≤ c ∧ c ≤ b := by
  simp [inRange]

lemma inRange_false {c : Nat} {r : CharRange} :
    inRange c r = false ↔ ¬ (r.1 ≤ c ∧ c ≤ r.2) := by
  rw [← Bool.not_eq_true, inRange_iff]

lemma mem_removeRange {c : Nat} {s : CharSet} {r : CharRange} :
    memCS c (removeRange s r) = true ↔ memCS c s = true ∧ inRange c r = false := by
  constructor
  · intro h
    rw [memCS_iff] at h
    obtain ⟨p, hp, hin⟩ := h
    rw [removeRange, List.mem_flatMap] at hp
    obtain ⟨ab, hab, hpiece⟩ := hp
    rw [List.mem_append] at hpiece
    have hweak : inRange c ab = true ∧ inRange c r = false := by
      rw [inRange_iff, inRange_false]
      rcases hpiece with hpiece | hpiece
      · by_cases hlt : ab.1 < r.1
        · simp only [hlt, if_true, List.mem_singleton] at hpiece
          subst hpiece
          rw [inRange_mk] at hin
          omega
        · simp [hlt] at hpiece
      · by_cases hlt : r.2 < ab.2
        · simp only [hlt, if_true, List.mem_singleton] at hpiece
          subst hpiece
          rw [inRange_mk] at hin
          omega
        · simp [hlt] at hpiece
    exact ⟨memCS_iff.mpr ⟨ab, hab, hweak.1⟩, hweak.2⟩
  · rintro ⟨h1, h2⟩
    rw [memCS_iff] at h1
    obtain ⟨ab, hab, hin⟩ := h1
    rw [inRange_iff] at hin
    rw [inRange_false] at h2
    rw [memCS_iff]
    rcases Nat.lt_or_ge c r.1 with hc | hc
    · refine ⟨(ab.1, min ab.2 (r.1 - 1)), ?_, ?_⟩
      · rw [removeRange, List.mem_flatMap]
        refine ⟨ab, hab, ?_⟩
        rw [List.mem_append]
        left
        have hl : ab.1 < r.1 := by omega
        simp [hl]
      · rw [inRange_mk]
        omega
    · have hc2 : r.2 < c := by omega
      refine ⟨(max ab.1 (r.2 + 1), ab.2), ?_, ?_⟩
      · rw [removeRange, List.mem_flatMap]
        refine ⟨ab, hab, ?_⟩
        rw [List.mem_append]
        right
        have hl : r.2 < ab.2 := by omega
        simp [hl]
      · rw [inRange_mk]
        omega

lemma mem_foldl_removeRange {c : Nat} :
    ∀ (gs : List CharRange) (a : CharSet),
      memCS c (gs.foldl removeRange a) = true ↔
        memCS c a = true ∧ ∀ g ∈ gs, inRange c g = false := by
  intro gs
  induction gs with
  | nil => intro a; simp
  | cons g gs ih =>
    intro a
    rw [List.foldl_cons, ih, mem_removeRange]
    constructor
    · rintro ⟨⟨h1, h2⟩, h3⟩
      exact ⟨h1, by
        intro g' hg'
        rcases List.mem_cons.mp hg' with hg' | hg'
        · exact hg' ▸ h2
        · exact h3 g' hg'⟩
    · rintro ⟨h1, h2⟩
      exact ⟨⟨h1, h2 g (List.mem_cons_self g gs)⟩, fun g' hg' => h2 g' (List.mem_cons_of_mem g hg')⟩

lemma canonicalChk_mono {s : CharSet} :
    ∀ {lo lo' : Nat}, lo' ≤ lo → canonicalChk lo s = true → canonicalChk lo' s = true := by
  induction s with
  | nil => intro lo lo' _ _; rfl
  | cons r rest ih =>
    intro lo lo' hle h
    simp only [canonicalChk, Bool.and_eq_true, decide_eq_true_eq] at h ⊢
    exact ⟨⟨by omega, h.1.2⟩, h.2⟩

lemma canonicalChk_mem_ge {c : Nat} :
    ∀ {lo : Nat} {s : CharSet}, canonicalChk lo s = true → memCS c s = true → lo ≤ c := by
  intro lo s
  induction s generalizing lo with
  | nil => intro _ h; simp [memCS] at h
  | cons r rest ih =>
    intro hcan hmem
    simp only [canonicalChk, Bool.and_eq_true, decide_eq_true_eq] at hcan
    rcases memCS_iff.mp hmem with ⟨g, hg, hin⟩
    rcases List.mem_cons.mp hg with hg | hg
    · subst hg
      rw [inRange_iff] at hin
      omega
    · have := ih hcan.2 (memCS_iff.mpr ⟨g, hg, hin⟩)
      omega

lemma memCS_cons {c : Nat} {r : CharRange} {rest : CharSet} :
    memCS c (r :: rest) = true ↔ inRange c r = true ∨ memCS c rest = true := by
  simp [memCS]

lemma memCS_cons_false {c : Nat} {r : CharRange} {rest : CharSet} :
    memCS c (r :: rest) = false ↔ inRange c r = false ∧ memCS c rest = false := by
  simp [memCS]

lemma memCS_singleton {c x y : Nat} : memCS c [(x, y)] = true ↔ x ≤ c ∧ c ≤ y := by
  simp [memCS, inRange]

lemma mem_gapsFrom {c : Nat} (hc : c ≤ maxScalar) :
    ∀ (lo : Nat) (s : CharSet), canonicalChk lo s = true →
      (memCS c (gapsFrom lo s) = true ↔ lo ≤ c ∧ memCS c s = false) := by
  intro lo s
  induction s generalizing lo with
  | nil =>
    intro _
    unfold gapsFrom
    by_cases h : lo ≤ maxScalar
    · simp only [h, if_true]
      rw [memCS_singleton]
      constructor
      · rintro ⟨h1, -⟩
        exact ⟨h1, rfl⟩
      · rintro ⟨h1, -⟩
        exact ⟨h1, hc⟩
    · simp only [h, if_false]
      constructor
      · intro hF
        exact absurd hF (by simp [memCS])
      · rintro ⟨h1, -⟩
        omega
  | cons r rest ih =>
    intro hcan
    simp only [canonicalChk, Bool.and_eq_true, decide_eq_true_eq] at hcan
    obtain ⟨⟨hlo, hr⟩, hrest⟩ := hcan
    have hrest' : canonicalChk (r.2 + 1) rest = true :=
      canonicalChk_mono (by omega) hrest
    have hih := ih (r.2 + 1) hrest'
    simp only [gapsFrom]
    have hsplit : memCS c ((if lo < r.1 then [(lo, r.1 - 1)] else []) ++ gapsFrom (r.2 + 1) rest) = true ↔
        memCS c (if lo < r.1 then [(lo, r.1 - 1)] else ([] : CharSet)) = true ∨
          memCS c (gapsFrom (r.2 + 1) rest) = true := by
      simp [memCS, List.any_append]
    rw [hsplit, hih, memCS_cons_false]
    constructor
    · intro h
      rcases h with h | ⟨h1, h2⟩
      · by_cases hlt : lo < r.1
        · simp only [hlt, if_true] at h
          rw [memCS_singleton] at h
          have hrestf : memCS c rest = false := by
            cases hmem : memCS c rest
            · rfl
            · have := canonicalChk_mem_ge hrest hmem
              omega
          refine ⟨h.1, ?_, hrestf⟩
          rw [inRange_false]
          omega
        · simp only [hlt, if_false] at h
          simp [memCS] at h
      · refine ⟨by omega, ?_, h2⟩
        rw [inRange_false]
        omega
    · rintro ⟨h1, h2r, h2rest⟩
      rw [inRange_false] at h2r
      rcases Nat.lt_or_ge c r.1 with hcr | hcr
      · left
        have hlt : lo < r.1 := by omega
        simp only [hlt, if_true]
        rw [memCS_singleton]
        omega
      · right
        exact ⟨by omega, h2rest⟩

lemma memCS_false_all {c : Nat} {s : CharSet} :
    memCS c s = false ↔ ∀ g ∈ s, inRange c g = false := by
  simp [memCS, List.any_eq_false]

lemma foldl_removeRange_nil : ∀ gs : List CharRange, gs.foldl removeRange [] = [] := by
  intro gs
  induction gs with
  | nil => rfl
  | cons g gs ih => simpa [removeRange] using ih

lemma validScalar_le {c : Nat} (hc : validScalar c = true) : c ≤ maxScalar := by
  simp only [validScalar, maxScalar, Bool.or_eq_true, Bool.and_eq_true, decide_eq_true_eq] at hc
  simp only [maxScalar]
  omega

/-- C5: for every pair of character sets A and B (with B satisfying the
canonical range-set invariant maintained by the library) and every valid
Unicode scalar c, c is in charset_intersection A B iff c is in A and c is
in B; intersecting the empty set with anything yields the empty set, and
intersecting any set with the universe any_char preserves membership of
every valid scalar. -/
theorem c5_charset_intersection (a b : CharSet) (c : Nat)
    (hb : canonicalChk 0 b = true) (hc : validScalar c = true) :
    memCS c (charset_intersection a b) = (memCS c a && memCS c b)
    ∧ charset_intersection [] b = []
    ∧ memCS c (charset_intersection a any_char) = memCS c a := by
  have hcle : c ≤ maxScalar := validScalar_le hc
  refine ⟨?_, foldl_removeRange_nil _, ?_⟩
  · rw [Bool.eq_iff_iff]
    rw [charset_intersection, mem_foldl_removeRange, Bool.and_eq_true]
    have hgaps := mem_gapsFrom hcle 0 b hb
    constructor
    · rintro ⟨h1, h2⟩
      refine ⟨h1, ?_⟩
      cases hmemb : memCS c b
      · have : memCS c (gapsFrom 0 b) = true := hgaps.mpr ⟨Nat.zero_le c, hmemb⟩
        rcases memCS_iff.mp this with ⟨g, hg, hin⟩
        rw [h2 g hg] at hin
        exact absurd hin (by simp)
      · rfl
    · rintro ⟨h1, h2⟩
      refine ⟨h1, ?_⟩
      rw [← memCS_false_all]
      cases hmemg : memCS c (gapsFrom 0 b)
      · rfl
      · have := hgaps.mp hmemg
        rw [h2] at this
        exact absurd this.2 (by simp)
  · have hgu : gapsFrom 0 any_char = [(0xd800, 0xdfff)] := by decide
    rw [Bool.eq_iff_iff]
    rw [charset_intersection, hgu]
    show memCS c (removeRange a (0xd800, 0xdfff)) = true ↔ memCS c a = true
    rw [mem_removeRange]
    constructor
    · exact fun h => h.1
    · intro h
      refine ⟨h, ?_⟩
      rw [inRange_false]
      simp only [validScalar, Bool.or_eq_true, Bool.and_eq_true, decide_eq_true_eq,
        maxScalar] at hc
      omega

theorem c5_charset_intersection_w :
    (canonicalChk 0 [(5, 20)] = true ∧ validScalar 7 = true)
    ∧ memCS 7 (charset_intersection [(0, 10)] [(5, 20)]) = (memCS 7 [(0, 10)] && memCS 7 [(5, 20)]) :=
  ⟨⟨by decide, by decide⟩,
    (c5_charset_intersection [(0, 10)] [(5, 20)] 7 (by decide) (by decide)).1⟩

/-- A transition label: the ε label (none) or some character set. -/
abbrev Label := Option CharSet

/-- The per-state transition table of nfa.rs, a BTreeMap from labels to
BTreeSets of targets, modelled as an association list from labels to
target lists with set semantics. -/
abbrev Transitions (Q : Type) := List (Label × List Q)

/-- The nondeterministic finite automaton of nfa.rs: a transition table
keyed by state, plus the sets of initial and final states. -/
structure NFA (Q : Type) where
  trans : List (Q × Transitions Q)
  initials : List Q
  finals : List Q

/-- Association-list lookup, modelling BTreeMap::get. -/
def lookupA {Q α : Type} [DecidableEq Q] (l : List (Q × α)) (q : Q) : Option α :=
  (l.find? (fun p => decide (p.1 = q))).map Prod.snd

/-- A computable, kernel-reducible enumeration of a state type, used to
iterate over finite sets of states the way the source iterates over
BTreeSets.  (The enumeration order is irrelevant to every result proved
below.) -/
class StateEnum (Q : Type) where
  elems : List Q
  complete : ∀ q : Q, q ∈ elems

instance (n : Nat) : StateEnum (Fin n) where
  elems := List.finRange n
  complete := List.mem_finRange

namespace NFA

variable {Q : Type} [LinearOrder Q] [StateEnum Q]

/-- The elements of a finite set of states as a list. -/
def setList (S : Finset Q) : List Q :=
  (StateEnum.elems (Q := Q)).filter (fun q => decide (q ∈ S))

lemma mem_setList {S : Finset Q} {q : Q} : q ∈ setList S ↔ q ∈ S := by
  simp [setList, List.mem_filter, StateEnum.complete q]

/-- transitions.get(q). -/
def getTrans? (n : NFA Q) (q : Q) : Option (Transitions Q) := lookupA n.trans q

/-- transitions.get(q), reading an absent entry as the empty table. -/
def transOf (n : NFA Q) (q : Q) : Transitions Q := (n.getTrans? q).getD []

/-- The ε successors of q: transitions.get(q) followed by get(&None). -/
def epsSucc (n : NFA Q) (q : Q) : List Q :=
  match (n.transOf q).find? (fun e => decide (e.1 = Option.none)) with
  | Option.none => []
  | Option.some e => e.2

/-- The visited-set DFS loop shared by modulo_epsilon_state and
recognizes_empty, with an explicit fuel parameter; the result is the
visited set. -/
def epsDFS (n : NFA Q) : Nat → Finset Q → List Q → Finset Q
  | 0, visited, _ => visited
  | _ + 1, visited, [] => visited
  | fuel + 1, visited, q :: stack =>
    if q ∈ visited then epsDFS n fuel visited stack
    else epsDFS n fuel (insert q visited) (n.epsSucc q ++ stack)

/-- A single ε edge. -/
def EpsStep (n : NFA Q) (a b : Q) : Prop := b ∈ n.epsSucc a

/-- Reachability along ε edges. -/
def EpsReach (n : NFA Q) : Q → Q → Prop := Relation.ReflTransGen n.EpsStep

variable [Fintype Q]

/-- Total remaining work of the ε DFS: unvisited states weighted by their
ε out-degree, plus the stack size.  Each loop iteration strictly decreases
it, so it bounds the fuel the loop needs. -/
def dfsWeight (n : NFA Q) (v : Finset Q) : Nat :=
  Finset.sum (Finset.univ \ v) (fun q => (n.epsSucc q).length + 1)

/-- Sufficient fuel for the ε DFS started on a stack of length k. -/
def closureFuel (n : NFA Q) (k : Nat) : Nat := dfsWeight n ∅ + k + 1

/-- modulo_epsilon_state from nfa.rs: the ε-closure of a set of states. -/
def epsClosure (n : NFA Q) (S : Finset Q) : Finset Q :=
  epsDFS n (closureFuel n (setList S).length) ∅ (setList S)

/-- The fuel is an upper bound for the remaining work of the DFS. -/
def DFSInv (n : NFA Q) (fuel : Nat) (v : Finset Q) (s : List Q) : Prop :=
  dfsWeight n v + s.length < fuel

lemma dfsWeight_insert (n : NFA Q) {v : Finset Q} {q : Q} (hq : q ∉ v) :
    dfsWeight n (insert q v) + ((n.epsSucc q).length + 1) = dfsWeight n v := by
  have hmem : q ∈ Finset.univ \ v := Finset.mem_sdiff.mpr ⟨Finset.mem_univ q, hq⟩
  have hset : Finset.univ \ insert q v = (Finset.univ \ v).erase q := by
    ext x
    simp only [Finset.mem_sdiff, Finset.mem_erase, Finset.mem_insert, Finset.mem_univ, true_and]
    tauto
  rw [dfsWeight, hset, dfsWeight]
  exact Finset.sum_erase_add _ _ hmem

lemma dfsInv_skip {n : NFA Q} {fuel : Nat} {v : Finset Q} {q : Q} {s : List Q}
    (h : DFSInv n (fuel + 1) v (q :: s)) : DFSInv n fuel v s := by
  simp only [DFSInv, List.length_cons] at h ⊢
  omega

lemma dfsInv_fresh {n : NFA Q} {fuel : Nat} {v : Finset Q} {q : Q} {s : List Q} (hq : q ∉ v)
    (h : DFSInv n (fuel + 1) v (q :: s)) : DFSInv n fuel (insert q v) (n.epsSucc q ++ s) := by
  have hw := dfsWeight_insert n hq
  simp only [DFSInv, List.length_cons, List.length_append] at h ⊢
  omega

lemma epsDFS_visited_subset (n : NFA Q) :
    ∀ (fuel : Nat) (v : Finset Q) (s : List Q), v ⊆ epsDFS n fuel v s := by
  intro fuel
  induction fuel with
  | zero => intro v s; rw [epsDFS]
  | succ fuel ih =>
    intro v s
    cases s with
    | nil => rw [epsDFS]
    | cons q rest =>
      rw [epsDFS]
      by_cases hq : q ∈ v
      · simpa [hq] using ih v rest
      · simp only [hq, if_false]
        exact (Finset.subset_insert q v).trans (ih _ _)

lemma epsDFS_stack_subset (n : NFA Q) :
    ∀ (fuel : Nat) (v : Finset Q) (s : List Q), DFSInv n fuel v s →
      ∀ q ∈ s, q ∈ epsDFS n fuel v s := by
  intro fuel
  induction fuel with
  | zero =>
    intro v s hInv
    exact absurd hInv (by simp [DFSInv])
  | succ fuel ih =>
    intro v s hInv q' hq'
    cases s with
    | nil => exact absurd hq' (List.not_mem_nil q')
    | cons q rest =>
      rw [epsDFS]
      by_cases hq : q ∈ v
      · simp only [hq, if_true]
        rcases List.mem_cons.mp hq' with rfl | hq'
        · exact epsDFS_visited_subset n fuel v rest hq
        · exact ih v rest (dfsInv_skip hInv) q' hq'
      · simp only [hq, if_false]
        rcases List.mem_cons.mp hq' with rfl | hq'
        · exact epsDFS_visited_subset n fuel _ _ (Finset.mem_insert_self q' v)
        · exact ih _ _ (dfsInv_fresh hq hInv) q' (List.mem_append_right _ hq')

lemma epsDFS_closed (n : NFA Q) :
    ∀ (fuel : Nat) (v : Finset Q) (s : List Q), DFSInv n fuel v s →
      ∀ x ∈ epsDFS n fuel v s, x ∉ v → ∀ y ∈ n.epsSucc x, y ∈ epsDFS n fuel v s := by
  intro fuel
  induction fuel with
  | zero =>
    intro v s hInv
    exact absurd hInv (by simp [DFSInv])
  | succ fuel ih =>
    intro v s hInv x hx hxv y hy
    cases s with
    | nil =>
      rw [epsDFS] at hx
      exact absurd hx hxv
    | cons q rest =>
      rw [epsDFS] at hx ⊢
      by_cases hq : q ∈ v
      · simp only [hq, if_true] at hx ⊢
        exact ih v rest (dfsInv_skip hInv) x hx hxv y hy
      · simp only [hq, if_false] at hx ⊢
        by_cases hxq : x = q
        · subst hxq
          exact epsDFS_stack_subset n fuel _ _ (dfsInv_fresh hq hInv) y
            (List.mem_append_left _ hy)
        · exact ih _ _ (dfsInv_fresh hq hInv) x hx
            (fun hmem => hxq (by rcases Finset.mem_insert.mp hmem with h | h
                                 · exact h
                                 · exact absurd h hxv)) y hy

lemma epsDFS_sound (n : NFA Q) :
    ∀ (fuel : Nat) (v : Finset Q) (s : List Q), ∀ x ∈ epsDFS n fuel v s,
      x ∈ v ∨ ∃ q ∈ s, n.EpsReach q x := by
  intro fuel
  induction fuel with
  | zero =>
    intro v s x hx
    rw [epsDFS] at hx
    exact Or.inl hx
  | succ fuel ih =>
    intro v s x hx
    cases s with
    | nil =>
      rw [epsDFS] at hx
      exact Or.inl hx
    | cons q rest =>
      rw [epsDFS] at hx
      by_cases hq : q ∈ v
      · simp only [hq, if_true] at hx
        rcases ih v rest x hx with h | ⟨p, hp, hreach⟩
        · exact Or.inl h
        · exact Or.inr ⟨p, List.mem_cons_of_mem q hp, hreach⟩
      · simp only [hq, if_false] at hx
        rcases ih _ _ x hx with h | ⟨p, hp, hreach⟩
        · rcases Finset.mem_insert.mp h with rfl | h
          · exact Or.inr ⟨x, List.mem_cons_self x rest, Relation.ReflTransGen.refl⟩
          · exact Or.inl h
        · rcases List.mem_append.mp hp with hp | hp
          · exact Or.inr ⟨q, List.mem_cons_self q rest,
              Relation.ReflTransGen.head hp hreach⟩
          · exact Or.inr ⟨p, List.mem_cons_of_mem q hp, hreach⟩

lemma epsDFS_mem_char (n : NFA Q) {fuel : Nat} {s : List Q} (hInv : DFSInv n fuel ∅ s) {x : Q} :
    x ∈ epsDFS n fuel ∅ s ↔ ∃ q ∈ s, n.EpsReach q x := by
  constructor
  · intro h
    rcases epsDFS_sound n fuel ∅ s x h with h | h
    · exact absurd h (Finset.not_mem_empty x)
    · exact h
  · rintro ⟨q, hq, hreach⟩
    induction hreach with
    | refl => exact epsDFS_stack_subset n fuel ∅ s hInv q hq
    | tail hab hbc ih =>
      exact epsDFS_closed n fuel ∅ s hInv _ ih (Finset.not_mem_empty _) _ hbc

lemma closure_inv (n : NFA Q) (S : Finset Q) :
    DFSInv n (closureFuel n (setList S).length) ∅ (setList S) := by
  simp only [DFSInv, closureFuel]
  omega

lemma mem_epsClosure {n : NFA Q} {S : Finset Q} {x : Q} :
    x ∈ n.epsClosure S ↔ ∃ s ∈ S, n.EpsReach s x := by
  rw [epsClosure, epsDFS_mem_char n (closure_inv n S)]
  simp only [mem_setList]

end NFA

end Ere

namespace Ere

namespace NFA

variable {Q : Type} [LinearOrder Q] [StateEnum Q]

/-- The targets reachable from a transition table by reading token c:
all targets of non-ε entries whose label contains c.  This is the
iteration done by Automaton::next_state in nfa.rs. -/
def moveT (c : Nat) : Transitions Q → List Q
  | [] => []
  | (Option.some s, ts) :: rest => if memCS c s then ts ++ moveT c rest else moveT c rest
  | (Option.none, _) :: rest => moveT c rest

lemma mem_moveT {c : Nat} {x : Q} :
    ∀ {ts : Transitions Q},
      x ∈ moveT c ts ↔ ∃ e ∈ ts, ∃ s, e.1 = Option.some s ∧ memCS c s = true ∧ x ∈ e.2 := by
  intro ts
  induction ts with
  | nil => simp [moveT]
  | cons e rest ih =>
    obtain ⟨l, tgts⟩ := e
    cases l with
    | none =>
      simp only [moveT, ih]
      constructor
      · rintro ⟨e', he', hs⟩
        exact ⟨e', List.mem_cons_of_mem _ he', hs⟩
      · rintro ⟨e', he', s, hs, hmem, hx⟩
        rcases List.mem_cons.mp he' with rfl | he'
        · cases hs
        · exact ⟨e', he', s, hs, hmem, hx⟩
    | some s =>
      by_cases hc : memCS c s
      · simp only [moveT, hc, if_true, List.mem_append, ih]
        constructor
        · rintro (hx | ⟨e', he', hs⟩)
          · exact ⟨(Option.some s, tgts), List.mem_cons_self _ rest, s, rfl, hc, hx⟩
          · exact ⟨e', List.mem_cons_of_mem _ he', hs⟩
        · rintro ⟨e', he', s', hs', hmem', hx⟩
          rcases List.mem_cons.mp he' with rfl | he'
          · cases hs'
            left
            exact hx
          · right
            exact ⟨e', he', s', hs', hmem', hx⟩
      · simp only [moveT, if_neg hc, ih]
        constructor
        · rintro ⟨e', he', hs⟩
          exact ⟨e', List.mem_cons_of_mem _ he', hs⟩
        · rintro ⟨e', he', s', hs', hmem', hx⟩
          rcases List.mem_cons.mp he' with rfl | he'
          · cases hs'
            exact absurd hmem' hc
          · exact ⟨e', he', s', hs', hmem', hx⟩

/-- Targets on token c from a single state. -/
def moveQ (n : NFA Q) (q : Q) (c : Nat) : List Q := moveT c (n.transOf q)

/-- Targets on token c from a set of states. -/
def moveSet (n : NFA Q) (S : Finset Q) (c : Nat) : Finset Q :=
  S.biUnion (fun q => (n.moveQ q c).toFinset)

variable [Fintype Q]

/-- One recognizer step from an ε-closed configuration, as implemented by
Automaton::next_state for the NFA in nfa.rs: read the token from every
current state, then ε-close the result.  The rejected configuration
(None in the source) is represented by the empty subset, which steps to
itself and is never final. -/
def stepSet (n : NFA Q) (S : Finset Q) (c : Nat) : Finset Q := n.epsClosure (n.moveSet S c)

/-- The recognizer's starting configuration (Automaton::initial_state for
the NFA): the ε-closure of the initial states. -/
def startSet (n : NFA Q) : Finset Q := n.epsClosure n.initials.toFinset

/-- Acceptance of a word starting from a given configuration. -/
def acceptsFrom (n : NFA Q) (S : Finset Q) (w : List Nat) : Bool :=
  decide ((w.foldl n.stepSet S ∩ n.finals.toFinset).Nonempty)

/-- The NFA accepts the word w: run the recognizer from the initial
configuration and check finality (Automaton::is_final_state). -/
def accepts (n : NFA Q) (w : List Nat) : Bool := n.acceptsFrom n.startSet w

lemma epsClosure_empty (n : NFA Q) : n.epsClosure ∅ = ∅ := by
  ext x
  rw [mem_epsClosure]
  simp

lemma acceptsFrom_nil {n : NFA Q} {S : Finset Q} :
    n.acceptsFrom S [] = true ↔ (S ∩ n.finals.toFinset).Nonempty := by
  simp [acceptsFrom]

lemma acceptsFrom_cons {n : NFA Q} {S : Finset Q} {c : Nat} {w : List Nat} :
    n.acceptsFrom S (c :: w) = n.acceptsFrom (n.stepSet S c) w := by
  simp [acceptsFrom]

lemma moveSet_empty (n : NFA Q) (c : Nat) : n.moveSet ∅ c = ∅ := by
  simp [moveSet]

lemma stepSet_empty (n : NFA Q) (c : Nat) : n.stepSet ∅ c = ∅ := by
  rw [stepSet, moveSet_empty, epsClosure_empty]

lemma acceptsFrom_empty (n : NFA Q) : ∀ (w : List Nat), n.acceptsFrom ∅ w = false := by
  intro w
  induction w with
  | nil => simp [acceptsFrom]
  | cons c w ih => rw [acceptsFrom_cons, stepSet_empty, ih]

/-- recognizes_empty from nfa.rs: DFS along ε transitions from the initial
states, returning true as soon as a final state is popped. -/
def recEmptyDFS (n : NFA Q) : Nat → Finset Q → List Q → Bool
  | 0, _, _ => false
  | _ + 1, _, [] => false
  | fuel + 1, visited, q :: stack =>
    if q ∈ visited then recEmptyDFS n fuel visited stack
    else if q ∈ n.finals then true
    else recEmptyDFS n fuel (insert q visited) (n.epsSucc q ++ stack)

/-- recognizes_empty from nfa.rs. -/
def recognizes_empty (n : NFA Q) : Bool :=
  recEmptyDFS n (closureFuel n n.initials.length) ∅ n.initials

lemma recEmptyDFS_sound (n : NFA Q) :
    ∀ (fuel : Nat) (v : Finset Q) (s : List Q), recEmptyDFS n fuel v s = true →
      ∃ x, (∃ q ∈ s, n.EpsReach q x) ∧ x ∈ n.finals := by
  intro fuel
  induction fuel with
  | zero =>
    intro v s h
    rw [recEmptyDFS] at h
    cases h
  | succ fuel ih =>
    intro v s h
    cases s with
    | nil =>
      rw [recEmptyDFS] at h
      cases h
    | cons q rest =>
      rw [recEmptyDFS] at h
      by_cases hq : q ∈ v
      · simp only [hq, if_true] at h
        rcases ih v rest h with ⟨x, ⟨p, hp, hreach⟩, hx⟩
        exact ⟨x, ⟨p, List.mem_cons_of_mem q hp, hreach⟩, hx⟩
      · simp only [hq, if_false] at h
        by_cases hfin : q ∈ n.finals
        · exact ⟨q, ⟨q, List.mem_cons_self q rest, Relation.ReflTransGen.refl⟩, hfin⟩
        · simp only [hfin, if_false] at h
          rcases ih _ _ h with ⟨x, ⟨p, hp, hreach⟩, hx⟩
          rcases List.mem_append.mp hp with hp | hp
          · exact ⟨x, ⟨q, List.mem_cons_self q rest,
              Relation.ReflTransGen.head hp hreach⟩, hx⟩
          · exact ⟨x, ⟨p, List.mem_cons_of_mem q hp, hreach⟩, hx⟩

lemma recEmptyDFS_false (n : NFA Q) :
    ∀ (fuel : Nat) (v : Finset Q) (s : List Q), DFSInv n fuel v s →
      recEmptyDFS n fuel v s = false →
      ∀ x ∈ epsDFS n fuel v s, x ∈ n.finals → x ∈ v := by
  intro fuel
  induction fuel with
  | zero =>
    intro v s hInv
    exact absurd hInv (by simp [DFSInv])
  | succ fuel ih =>
    intro v s hInv hfalse x hx hfin
    cases s with
    | nil =>
      rw [epsDFS] at hx
      exact hx
    | cons q rest =>
      rw [recEmptyDFS] at hfalse
      rw [epsDFS] at hx
      by_cases hq : q ∈ v
      · simp only [hq, if_true] at hfalse hx
        exact ih v rest (dfsInv_skip hInv) hfalse x hx hfin
      · simp only [hq, if_false] at hfalse hx
        by_cases hqfin : q ∈ n.finals
        · simp only [hqfin, if_true] at hfalse
          cases hfalse
        · simp only [hqfin, if_false] at hfalse
          have := ih _ _ (dfsInv_fresh hq hInv) hfalse x hx hfin
          rcases Finset.mem_insert.mp this with rfl | h
          · exact absurd hfin hqfin
          · exact h

/-- C7: recognizes_empty returns true iff the ε-closure of the set of
initial states contains at least one final state. -/
theorem c7_recognizes_empty (n : NFA Q) :
    n.recognizes_empty = true ↔ ∃ q ∈ n.epsClosure n.initials.toFinset, q ∈ n.finals := by
  have hInv : DFSInv n (closureFuel n n.initials.length) ∅ n.initials := by
    simp only [DFSInv, closureFuel]
    omega
  constructor
  · intro h
    rcases recEmptyDFS_sound n _ _ _ h with ⟨x, ⟨p, hp, hreach⟩, hx⟩
    exact ⟨x, mem_epsClosure.mpr ⟨p, List.mem_toFinset.mpr hp, hreach⟩, hx⟩
  · rintro ⟨x, hx, hfin⟩
    cases h : n.recognizes_empty
    · rcases mem_epsClosure.mp hx with ⟨p, hp, hreach⟩
      have hx' : x ∈ epsDFS n (closureFuel n n.initials.length) ∅ n.initials :=
        (epsDFS_mem_char n hInv).mpr ⟨p, List.mem_toFinset.mp hp, hreach⟩
      have := recEmptyDFS_false n _ _ _ hInv h x hx' hfin
      exact absurd this (Finset.not_mem_empty x)
    · rfl

/-- C10: the computed ε-closure of S contains S, is closed under
ε transitions, is contained in every set U that contains S and is closed
under ε transitions (it is the least such set), is monotone in S, and is
idempotent. -/
theorem c10_eps_closure (n : NFA Q) (S T U : Finset Q)
    (hST : S ⊆ T)
    (hSU : S ⊆ U) (hU : ∀ x ∈ U, ∀ y ∈ n.epsSucc x, y ∈ U) :
    S ⊆ n.epsClosure S
    ∧ (∀ x ∈ n.epsClosure S, ∀ y ∈ n.epsSucc x, y ∈ n.epsClosure S)
    ∧ n.epsClosure S ⊆ U
    ∧ n.epsClosure S ⊆ n.epsClosure T
    ∧ n.epsClosure (n.epsClosure S) = n.epsClosure S := by
  refine ⟨?_, ?_, ?_, ?_, ?_⟩
  · intro x hx
    exact mem_epsClosure.mpr ⟨x, hx, Relation.ReflTransGen.refl⟩
  · intro x hx y hy
    rcases mem_epsClosure.mp hx with ⟨s, hs, hreach⟩
    exact mem_epsClosure.mpr ⟨s, hs, Relation.ReflTransGen.tail hreach hy⟩
  · intro x hx
    rcases mem_epsClosure.mp hx with ⟨s, hs, hreach⟩
    clear hx
    induction hreach with
    | refl => exact hSU hs
    | tail hab hbc ih => exact hU _ ih _ hbc
  · intro x hx
    rcases mem_epsClosure.mp hx with ⟨s, hs, hreach⟩
    exact mem_epsClosure.mpr ⟨s, hST hs, hreach⟩
  · ext x
    constructor
    · intro hx
      rcases mem_epsClosure.mp hx with ⟨s, hs, hreach⟩
      rcases mem_epsClosure.mp hs with ⟨t, ht, hreach'⟩
      exact mem_epsClosure.mpr ⟨t, ht, hreach'.trans hreach⟩
    · intro hx
      rcases mem_epsClosure.mp hx with ⟨s, hs, hreach⟩
      exact mem_epsClosure.mpr ⟨s, mem_epsClosure.mpr ⟨s, hs, Relation.ReflTransGen.refl⟩,
        hreach⟩

end NFA

end Ere

namespace Ere

/-- The number of scalars in a character set (RangeSet::len), under the
canonical invariant: the sum of the range sizes. -/
def csSize (s : CharSet) : Nat := (s.map (fun r => r.2 + 1 - r.1)).sum

/-- The first scalar of a character set: iter().next().unwrap().first().unwrap()
in the source; only evaluated on nonempty canonical sets. -/
def csFirst (s : CharSet) : Nat := ((s.head?).map Prod.fst).getD 0

namespace NFA

variable {Q : Type} [LinearOrder Q]

/-- add_state from nfa.rs (declare_state in the older copy):
transitions.entry(q).or_default(), ensuring q is a key of the transition
table; idempotent. -/
def add_state (n : NFA Q) (q : Q) : NFA Q :=
  match lookupA n.trans q with
  | Option.some _ => n
  | Option.none => { n with trans := n.trans ++ [(q, [])] }

/-- The walking loop of to_singleton (nfa.rs), with explicit fuel; outer
none means the loop did not finish within the given fuel (the source loop
can genuinely diverge, see the c3 theorem).  Inner some acc: the walk
broke out of the loop and the function returns Some(acc); inner none: the
function returns None.  first_key_value and BTreeSet::first are modelled
by List.head?, which agrees with the source because they are only reached
when the table (resp. target set) has at most one entry. -/
def toSingletonLoop (n : NFA Q) : Nat → Q → List Nat → Option (Option (List Nat))
  | 0, _, _ => Option.none
  | fuel + 1, q, acc =>
    match n.getTrans? q with
    | Option.none => Option.some (Option.some acc)
    | Option.some ts =>
      if ts.length > 1 then Option.some Option.none
      else
        match ts.head? with
        | Option.none => Option.some (Option.some acc)
        | Option.some e =>
          if e.2.length > 1 then Option.some Option.none
          else
            match e.2.head? with
            | Option.none => Option.some (Option.some acc)
            | Option.some t =>
              match e.1 with
              | Option.some range =>
                if csSize range = 1 then toSingletonLoop n fuel t (acc ++ [csFirst range])
                else Option.some Option.none
              | Option.none => Option.some Option.none

/-- to_singleton from nfa.rs (fuelled). -/
def to_singleton (n : NFA Q) (fuel : Nat) : Option (Option (List Nat)) :=
  if n.initials.length > 1 then Option.some Option.none
  else
    match n.initials.head? with
    | Option.none => Option.some (Option.some [])
    | Option.some q => toSingletonLoop n fuel q []

/-- The walking loop of is_singleton (nfa.rs), with explicit fuel; none
means the loop did not finish within the given fuel. -/
def isSingletonLoop (n : NFA Q) : Nat → Q → Option Bool
  | 0, _ => Option.none
  | fuel + 1, q =>
    match n.getTrans? q with
    | Option.none => Option.some true
    | Option.some ts =>
      if ts.length > 1 then Option.some false
      else
        match ts.head? with
        | Option.none => Option.some true
        | Option.some e =>
          if e.2.length > 1 then Option.some false
          else
            match e.2.head? with
            | Option.none => Option.some true
            | Option.some t =>
              match e.1 with
              | Option.some range =>
                if csSize range = 1 then isSingletonLoop n fuel t
                else Option.some false
              | Option.none => Option.some false

/-- is_singleton from nfa.rs (fuelled). -/
def is_singleton (n : NFA Q) (fuel : Nat) : Option Bool :=
  if n.initials.length > 1 then Option.some false
  else
    match n.initials.head? with
    | Option.none => Option.some true
    | Option.some q => isSingletonLoop n fuel q

end NFA

/-- A one-state NFA whose initial state 0 is not final and has no
transitions.  to_singleton walks zero steps and returns Some of the empty
string although the automaton accepts nothing. -/
def exC2 : NFA (Fin 1) := ⟨[(0, [])], [0], []⟩

/-- C2 is a code bug (the spec itself flags it): to_singleton returns
Some("") on an automaton whose walk dead-ends at a non-final state, yet
the automaton accepts no string: it does not accept the empty string
(recognizes_empty is false as well). -/
theorem c2_to_singleton_bug :
    NFA.to_singleton exC2 1 = Option.some (Option.some [])
    ∧ exC2.accepts [] = false
    ∧ exC2.recognizes_empty = false := by decide

/-- A one-state NFA with the single-character self-loop 0 --{a}--> 0:
the singleton walk revisits state 0 forever. -/
def exC3 : NFA (Fin 1) := ⟨[(0, [(Option.some [(97, 97)], [0])])], [0], [0]⟩

lemma c3auxTo : ∀ (fuel : Nat) (acc : List Nat),
    NFA.toSingletonLoop exC3 fuel 0 acc = Option.none := by
  intro fuel
  induction fuel with
  | zero => intro acc; rfl
  | succ fuel ih =>
    intro acc
    show NFA.toSingletonLoop exC3 fuel 0 (acc ++ [97]) = Option.none
    exact ih _

lemma c3auxIs : ∀ fuel : Nat, NFA.isSingletonLoop exC3 fuel 0 = Option.none := by
  intro fuel
  induction fuel with
  | zero => rfl
  | succ fuel ih =>
    show NFA.isSingletonLoop exC3 fuel 0 = Option.none
    exact ih

/-- C3 is a code bug: on the self-loop automaton exC3 the to_singleton and
is_singleton walks never terminate; in the fuelled model they exhaust
every amount of fuel (the source loops forever). -/
theorem c3_singleton_divergence :
    (∀ fuel : Nat, NFA.to_singleton exC3 fuel = Option.none)
    ∧ (∀ fuel : Nat, NFA.is_singleton exC3 fuel = Option.none) := by
  constructor
  · intro fuel
    show NFA.toSingletonLoop exC3 fuel 0 [] = Option.none
    exact c3auxTo fuel []
  · intro fuel
    show NFA.isSingletonLoop exC3 fuel 0 = Option.none
    exact c3auxIs fuel

/-- The TooManyStates-issuing default 32-bit state builder (nfa.rs). -/
structure U32StateBuilder where
  count : Nat
  limit : Nat
deriving DecidableEq

/-- The number of u32 values, 2^32. -/
def u32Bound : Nat := 4294967296

/-- next_state of U32StateBuilder (nfa.rs).  The Err(TooManyStates) outcome
is modelled as none in the first component; the second component is the NFA
after the call, which the source leaves untouched on both error paths.
The counter lives in Nat with the u32 invariant count < 2^32 as a
hypothesis; checked_add overflows exactly when count + 1 reaches 2^32. -/
def next_state (b : U32StateBuilder) (n : NFA Nat) :
    Option (Nat × U32StateBuilder) × NFA Nat :=
  if b.count + 1 ≥ u32Bound then (Option.none, n)
  else if b.count + 1 > b.limit then (Option.none, n)
  else (Option.some (b.count, ⟨b.count + 1, b.limit⟩), n.add_state b.count)

/-- An NFA that already contains state 0 with an outgoing transition. -/
def exC8 : NFA Nat := ⟨[(0, [(Option.none, [0])])], [], []⟩

/-- C8 counterexample: next_state succeeds with q = 0 on an NFA that
already has transitions out of state 0; afterwards q is not a bare state
with no transitions, contrary to the claim. -/
theorem c8_counterexample :
    (next_state ⟨0, 10⟩ exC8).1 = Option.some (0, ⟨1, 10⟩)
    ∧ (next_state ⟨0, 10⟩ exC8).2.transOf 0 = [(Option.none, [0])]
    ∧ ¬ (next_state ⟨0, 10⟩ exC8).2.transOf 0 = [] := by decide

lemma lookupA_cons {Q α : Type} [DecidableEq Q] (p : Q × α) (l : List (Q × α)) (k : Q) :
    lookupA (p :: l) k = if p.1 = k then Option.some p.2 else lookupA l k := by
  by_cases hp : p.1 = k
  · simp [lookupA, List.find?_cons_of_pos, hp]
  · simp [lookupA, List.find?_cons_of_neg, hp]

lemma lookupA_append {Q α : Type} [DecidableEq Q] (l1 l2 : List (Q × α)) (k : Q) :
    lookupA (l1 ++ l2) k = (lookupA l1 k).or (lookupA l2 k) := by
  induction l1 with
  | nil => simp [lookupA]
  | cons p l1 ih =>
    rw [List.cons_append, lookupA_cons, lookupA_cons]
    by_cases hp : p.1 = k
    · simp [hp]
    · simp [hp, ih]

namespace NFA

variable {Q : Type} [LinearOrder Q]

lemma add_state_transOf (n : NFA Q) (q p : Q) : (n.add_state q).transOf p = n.transOf p := by
  rw [add_state]
  cases hq : lookupA n.trans q with
  | some ts => rfl
  | none =>
    simp only [transOf, getTrans?]
    rw [lookupA_append, lookupA_cons]
    by_cases hpq : q = p
    · subst hpq
      rw [hq]
      simp
    · simp [hpq, lookupA]

lemma add_state_getTrans_of_absent (n : NFA Q) (q : Q) (h : n.getTrans? q = Option.none) :
    (n.add_state q).getTrans? q = Option.some [] := by
  rw [getTrans?] at h
  simp only [add_state, h]
  simp only [getTrans?, lookupA_append, lookupA_cons, h]
  simp

end NFA

/-- C8 amended: for every builder state satisfying the u32 invariant and
every NFA, next_state errs with TooManyStates iff the incremented counter
overflows u32 or exceeds the configured limit; on error the NFA is left
unchanged; on success the returned state q is the pre-increment counter
value, the builder counter is incremented, and q has been ensured present
in the NFA: it is added with an empty transition table if it was absent,
while a state that already existed keeps its transitions. -/
theorem c8_next_state (b : U32StateBuilder) (n : NFA Nat) (hcount : b.count < u32Bound) :
    ((next_state b n).1 = Option.none ↔ u32Bound ≤ b.count + 1 ∨ b.limit < b.count + 1)
    ∧ ((next_state b n).1 = Option.none → (next_state b n).2 = n)
    ∧ (∀ q b', (next_state b n).1 = Option.some (q, b') →
        q = b.count ∧ b' = ⟨b.count + 1, b.limit⟩
        ∧ (next_state b n).2.transOf q = n.transOf q
        ∧ (n.getTrans? q = Option.none → (next_state b n).2.getTrans? q = Option.some [])) := by
  by_cases h1 : u32Bound ≤ b.count + 1
  · have hns : next_state b n = (Option.none, n) := by
      rw [next_state]
      simp [h1]
    rw [hns]
    refine ⟨?_, ?_, ?_⟩
    · simp [h1]
    · intro _
      rfl
    · intro q b' h
      cases h
  · by_cases h2 : b.limit < b.count + 1
    · have hns : next_state b n = (Option.none, n) := by
        rw [next_state]
        simp [h1, h2]
      rw [hns]
      refine ⟨?_, ?_, ?_⟩
      · simp [h2]
      · intro _
        rfl
      · intro q b' h
        cases h
    · have hns : next_state b n =
          (Option.some (b.count, ⟨b.count + 1, b.limit⟩), n.add_state b.count) := by
        rw [next_state]
        simp [h1, h2]
      rw [hns]
      refine ⟨?_, ?_, ?_⟩
      · simp [h1, h2]
      · intro h
        cases h
      · intro q b' h
        simp only [Option.some.injEq, Prod.mk.injEq] at h
        obtain ⟨hq, hb⟩ := h
        subst hq
        subst hb
        exact ⟨rfl, rfl, NFA.add_state_transOf n b.count b.count,
          fun habs => NFA.add_state_getTrans_of_absent n b.count habs⟩

theorem c8_next_state_w :
    (0 : Nat) < u32Bound
    ∧ ((next_state ⟨0, 10⟩ ⟨[], [], []⟩).1 = Option.none ↔
        u32Bound ≤ 0 + 1 ∨ 10 < 0 + 1) :=
  ⟨by decide, (c8_next_state ⟨0, 10⟩ ⟨[], [], []⟩ (by decide)).1⟩

end Ere

namespace Ere

/-- A two-state NFA with one ε transition 0 → 1 (initial 0, final 1). -/
def exEps : NFA (Fin 2) := ⟨[(0, [(Option.none, [1])]), (1, [])], [0], [1]⟩

theorem c10_eps_closure_w :
    (({0} : Finset (Fin 2)) ⊆ {0, 1}
      ∧ ({0} : Finset (Fin 2)) ⊆ Finset.univ
      ∧ (∀ x ∈ (Finset.univ : Finset (Fin 2)), ∀ y ∈ exEps.epsSucc x, y ∈ Finset.univ))
    ∧ exEps.epsClosure {0} ⊆ exEps.epsClosure {0, 1} :=
  ⟨⟨by decide, by decide, by decide⟩,
    (NFA.c10_eps_closure exEps {0} {0, 1} Finset.univ (by decide) (by decide)
      (by decide)).2.2.2.1⟩

end Ere

namespace Ere

section Crawl

variable {α β : Type} [DecidableEq α] [DecidableEq β]

/-- The worklist traversal shared by determinize and product in nfa.rs:
pop an element, skip it when its image under the interning function g is
already in the visited set, otherwise record it, mark its image visited
and push its successors.  The result is the list of recorded (processed)
elements; the per-element data (transition rows, finality) computed by the
source loops depends only on this list, so the loops are modelled as this
traversal followed by a pass over the processed list.  The fuel is shown
sufficient below. -/
def crawl (succs : α → List α) (g : α → β) : Nat → Finset β → List α → List α
  | 0, _, _ => []
  | _ + 1, _, [] => []
  | fuel + 1, visited, x :: stack =>
    if g x ∈ visited then crawl succs g fuel visited stack
    else x :: crawl succs g fuel (insert (g x) visited) (succs x ++ stack)

variable (succs : α → List α) (g : α → β)

/-- Reachability along crawl successors. -/
def CrawlReach (a b : α) : Prop := Relation.ReflTransGen (fun u v => v ∈ succs u) a b

/-- Remaining work of the crawl: unvisited images weighted by the maximal
successor count E, plus the stack size. -/
def crawlWeight (B : Finset β) (E : Nat) (v : Finset β) : Nat :=
  Finset.sum (B \ v) (fun _ => E + 1)

/-- The fuel bounds the remaining work. -/
def CrawlInv (B : Finset β) (E : Nat) (fuel : Nat) (v : Finset β) (s : List α) : Prop :=
  crawlWeight B E v + s.length < fuel

lemma crawlWeight_insert (B : Finset β) (E : Nat) {v : Finset β} {b : β}
    (hb : b ∈ B) (hbv : b ∉ v) :
    crawlWeight B E (insert b v) + (E + 1) = crawlWeight B E v := by
  have hmem : b ∈ B \ v := Finset.mem_sdiff.mpr ⟨hb, hbv⟩
  have hset : B \ insert b v = (B \ v).erase b := by
    ext x
    simp only [Finset.mem_sdiff, Finset.mem_erase, Finset.mem_insert]
    tauto
  rw [crawlWeight, hset, crawlWeight]
  exact Finset.sum_erase_add _ _ hmem

variable {B : Finset β} {E : Nat}

lemma crawlInv_skip {fuel : Nat} {v : Finset β} {x : α} {s : List α}
    (h : CrawlInv B E (fuel + 1) v (x :: s)) : CrawlInv B E fuel v s := by
  simp only [CrawlInv, List.length_cons] at h ⊢
  omega

lemma crawlInv_fresh (hB : ∀ a : α, g a ∈ B) (hE : ∀ a : α, (succs a).length ≤ E)
    {fuel : Nat} {v : Finset β} {x : α} {s : List α} (hx : g x ∉ v)
    (h : CrawlInv B E (fuel + 1) v (x :: s)) :
    CrawlInv B E fuel (insert (g x) v) (succs x ++ s) := by
  have hw := crawlWeight_insert B E (hB x) hx
  have hlen := hE x
  simp only [CrawlInv, List.length_cons, List.length_append] at h ⊢
  omega

lemma crawl_sound :
    ∀ (fuel : Nat) (v : Finset β) (s : List α), ∀ x ∈ crawl succs g fuel v s,
      ∃ q ∈ s, CrawlReach succs q x := by
  intro fuel
  induction fuel with
  | zero =>
    intro v s x hx
    rw [crawl] at hx
    cases hx
  | succ fuel ih =>
    intro v s x hx
    cases s with
    | nil =>
      rw [crawl] at hx
      cases hx
    | cons q rest =>
      rw [crawl] at hx
      by_cases hq : g q ∈ v
      · simp only [hq, if_true] at hx
        rcases ih v rest x hx with ⟨p, hp, hreach⟩
        exact ⟨p, List.mem_cons_of_mem q hp, hreach⟩
      · simp only [hq, if_false] at hx
        rcases List.mem_cons.mp hx with rfl | hx
        · exact ⟨x, List.mem_cons_self x rest, Relation.ReflTransGen.refl⟩
        · rcases ih _ _ x hx with ⟨p, hp, hreach⟩
          rcases List.mem_append.mp hp with hp | hp
          · exact ⟨q, List.mem_cons_self q rest, Relation.ReflTransGen.head hp hreach⟩
          · exact ⟨p, List.mem_cons_of_mem q hp, hreach⟩

lemma crawl_fresh :
    ∀ (fuel : Nat) (v : Finset β) (s : List α), ∀ x ∈ crawl succs g fuel v s, g x ∉ v := by
  intro fuel
  induction fuel with
  | zero =>
    intro v s x hx
    rw [crawl] at hx
    cases hx
  | succ fuel ih =>
    intro v s x hx
    cases s with
    | nil =>
      rw [crawl] at hx
      cases hx
    | cons q rest =>
      rw [crawl] at hx
      by_cases hq : g q ∈ v
      · simp only [hq, if_true] at hx
        exact ih v rest x hx
      · simp only [hq, if_false] at hx
        rcases List.mem_cons.mp hx with rfl | hx
        · exact hq
        · intro hxv
          exact ih _ _ x hx (Finset.mem_insert_of_mem hxv)

lemma crawl_imageNodup :
    ∀ (fuel : Nat) (v : Finset β) (s : List α), ((crawl succs g fuel v s).map g).Nodup := by
  intro fuel
  induction fuel with
  | zero =>
    intro v s
    rw [crawl]
    exact List.nodup_nil
  | succ fuel ih =>
    intro v s
    cases s with
    | nil =>
      rw [crawl]
      exact List.nodup_nil
    | cons q rest =>
      rw [crawl]
      by_cases hq : g q ∈ v
      · simp only [hq, if_true]
        exact ih v rest
      · simp only [hq, if_false, List.map_cons, List.nodup_cons]
        refine ⟨?_, ih _ _⟩
        intro hmem
        rcases List.mem_map.mp hmem with ⟨y, hy, hgy⟩
        have := crawl_fresh succs g fuel _ _ y hy
        rw [hgy] at this
        exact this (Finset.mem_insert_self _ _)

lemma crawl_stack_mem (hg : Function.Injective g)
    (hB : ∀ a : α, g a ∈ B) (hE : ∀ a : α, (succs a).length ≤ E) :
    ∀ (fuel : Nat) (v : Finset β) (s : List α), CrawlInv B E fuel v s →
      ∀ q ∈ s, g q ∈ v ∨ q ∈ crawl succs g fuel v s := by
  intro fuel
  induction fuel with
  | zero =>
    intro v s hInv
    exact absurd hInv (by simp [CrawlInv])
  | succ fuel ih =>
    intro v s hInv q' hq'
    cases s with
    | nil => exact absurd hq' (List.not_mem_nil q')
    | cons q rest =>
      rw [crawl]
      by_cases hq : g q ∈ v
      · simp only [hq, if_true]
        rcases List.mem_cons.mp hq' with rfl | hq'
        · exact Or.inl hq
        · exact ih v rest (crawlInv_skip hInv) q' hq'
      · simp only [hq, if_false]
        rcases List.mem_cons.mp hq' with rfl | hq'
        · exact Or.inr (List.mem_cons_self q' _)
        · rcases ih _ _ (crawlInv_fresh succs g hB hE hq hInv) q'
            (List.mem_append_right _ hq') with h | h
          · rcases Finset.mem_insert.mp h with heq | h
            · exact Or.inr (hg heq ▸ List.mem_cons_self q _)
            · exact Or.inl h
          · exact Or.inr (List.mem_cons_of_mem q h)

lemma crawl_closed (hg : Function.Injective g)
    (hB : ∀ a : α, g a ∈ B) (hE : ∀ a : α, (succs a).length ≤ E) :
    ∀ (fuel : Nat) (v : Finset β) (s : List α), CrawlInv B E fuel v s →
      ∀ x ∈ crawl succs g fuel v s, ∀ y ∈ succs x,
        g y ∈ v ∨ y ∈ crawl succs g fuel v s := by
  intro fuel
  induction fuel with
  | zero =>
    intro v s hInv
    exact absurd hInv (by simp [CrawlInv])
  | succ fuel ih =>
    intro v s hInv x hx y hy
    cases s with
    | nil =>
      rw [crawl] at hx
      cases hx
    | cons q rest =>
      rw [crawl] at hx ⊢
      by_cases hq : g q ∈ v
      · simp only [hq, if_true] at hx ⊢
        exact ih v rest (crawlInv_skip hInv) x hx y hy
      · simp only [hq, if_false] at hx ⊢
        have hInv' := crawlInv_fresh succs g hB hE hq hInv
        rcases List.mem_cons.mp hx with rfl | hx
        · rcases crawl_stack_mem succs g hg hB hE fuel _ _ hInv' y
            (List.mem_append_left _ hy) with h | h
          · rcases Finset.mem_insert.mp h with heq | h
            · exact Or.inr (hg heq ▸ List.mem_cons_self x _)
            · exact Or.inl h
          · exact Or.inr (List.mem_cons_of_mem x h)
        · rcases ih _ _ hInv' x hx y hy with h | h
          · rcases Finset.mem_insert.mp h with heq | h
            · exact Or.inr (hg heq ▸ List.mem_cons_self q _)
            · exact Or.inl h
          · exact Or.inr (List.mem_cons_of_mem q h)

lemma crawl_complete (hg : Function.Injective g)
    (hB : ∀ a : α, g a ∈ B) (hE : ∀ a : α, (succs a).length ≤ E)
    {fuel : Nat} {s : List α} (hInv : CrawlInv B E fuel ∅ s)
    {q x : α} (hq : q ∈ s) (hreach : CrawlReach succs q x) :
    x ∈ crawl succs g fuel ∅ s := by
  induction hreach with
  | refl =>
    rcases crawl_stack_mem succs g hg hB hE fuel ∅ s hInv q hq with h | h
    · exact absurd h (Finset.not_mem_empty _)
    · exact h
  | tail hab hbc ih =>
    rcases crawl_closed succs g hg hB hE fuel ∅ s hInv _ ih _ hbc with h | h
    · exact absurd h (Finset.not_mem_empty _)
    · exact h

end Crawl

end Ere

namespace Ere

namespace NFA

variable {Q : Type} [LinearOrder Q] [StateEnum Q] [Fintype Q]

/-- The loop "for q in targets extend(modulo_epsilon_state(Some(q)))" of
determinize_transitions_for: the union of the ε-closures of the targets. -/
def targetsClosure (n : NFA Q) (ts : List Q) : Finset Q :=
  ts.foldr (fun t acc => acc ∪ n.epsClosure {t}) ∅

lemma mem_targetsClosure {n : NFA Q} {ts : List Q} {x : Q} :
    x ∈ n.targetsClosure ts ↔ ∃ t ∈ ts, n.EpsReach t x := by
  induction ts with
  | nil => simp [targetsClosure]
  | cons t ts ih =>
    simp only [targetsClosure, List.foldr_cons, Finset.mem_union]
    rw [show (List.foldr (fun t acc => acc ∪ n.epsClosure {t}) ∅ ts) = n.targetsClosure ts
        from rfl] at *
    rw [ih, mem_epsClosure]
    simp only [Finset.mem_singleton, List.mem_cons]
    constructor
    · rintro (⟨t', ht', hr⟩ | ⟨s, hs, hr⟩)
      · exact ⟨t', Or.inr ht', hr⟩
      · exact ⟨s, Or.inl hs, hr⟩
    · rintro ⟨t', h | ht', hr⟩
      · exact Or.inr ⟨t', h, hr⟩
      · exact Or.inl ⟨t', ht', hr⟩

/-- The contributions that determinize_transitions_for enumerates for one
source state q: for every non-ε entry of its table and every range of the
label, the pair of that range and the ε-closed target set. -/
def contribsOf (n : NFA Q) (q : Q) : List (CharRange × Finset Q) :=
  (n.transOf q).flatMap (fun e =>
    match e.1 with
    | Option.some cs => cs.map (fun r => (r, n.targetsClosure e.2))
    | Option.none => [])

/-- All contributions for the subset S. -/
def contribs (n : NFA Q) (S : Finset Q) : List (CharRange × Finset Q) :=
  (setList S).flatMap (contribsOf n)

lemma mem_contribs {n : NFA Q} {S : Finset Q} {p : CharRange × Finset Q} :
    p ∈ contribs n S ↔ ∃ q ∈ S, ∃ e ∈ n.transOf q, ∃ cs, e.1 = Option.some cs
      ∧ p.1 ∈ cs ∧ p.2 = n.targetsClosure e.2 := by
  rw [contribs, List.mem_flatMap]
  constructor
  · rintro ⟨q, hq, hp⟩
    rw [contribsOf, List.mem_flatMap] at hp
    obtain ⟨e, he, hp⟩ := hp
    cases hcs : e.1 with
    | none =>
      rw [hcs] at hp
      cases hp
    | some cs =>
      rw [hcs] at hp
      rcases List.mem_map.mp hp with ⟨r, hr, rfl⟩
      exact ⟨q, mem_setList.mp hq, e, he, cs, hcs, hr, rfl⟩
  · rintro ⟨q, hq, e, he, cs, hcs, hr, hval⟩
    refine ⟨q, mem_setList.mpr hq, ?_⟩
    rw [contribsOf, List.mem_flatMap]
    refine ⟨e, he, ?_⟩
    rw [hcs]
    rcases p with ⟨r, v⟩
    exact List.mem_map.mpr ⟨r, hr, by simp at hval ⊢; exact hval.symm⟩

/-- Whether the range map built by determinize_transitions_for covers c. -/
def detCovers (n : NFA Q) (S : Finset Q) (c : Nat) : Bool :=
  (contribs n S).any (fun p => inRange c p.1)

/-- The value of that range map at c: the union of all covering
contributions (RangeMap::update merges overlapping contributions by set
union, splitting ranges so that the pointwise value is exactly this). -/
def detValue (n : NFA Q) (S : Finset Q) (c : Nat) : Finset Q :=
  ((contribs n S).filter (fun p => inRange c p.1)).foldr (fun p acc => p.2 ∪ acc) ∅

/-- Pointwise lookup in the built range map. -/
def detStep? (n : NFA Q) (S : Finset Q) (c : Nat) : Option (Finset Q) :=
  if detCovers n S c then Option.some (detValue n S c) else Option.none

/-- The boundary points of the contributions: range starts and successors
of range ends.  The pointwise value of the range map is constant between
consecutive boundary points, so every entry of the map is attained at one
of them. -/
def detBoundaries (n : NFA Q) (S : Finset Q) : List Nat :=
  (contribs n S).flatMap (fun p => [p.1.1, p.1.2 + 1])

/-- The subsets pushed on the determinization stack for the processed
subset S: exactly the values of the built range map. -/
def detSuccs (n : NFA Q) (S : Finset Q) : List (Finset Q) :=
  (detBoundaries n S).filterMap (fun c => detStep? n S c)

lemma mem_detValue {n : NFA Q} {S : Finset Q} {c : Nat} {x : Q} :
    x ∈ detValue n S c ↔ ∃ p ∈ contribs n S, inRange c p.1 = true ∧ x ∈ p.2 := by
  rw [detValue]
  induction contribs n S with
  | nil => simp
  | cons p ps ih =>
    rw [List.filter_cons]
    by_cases hp : inRange c p.1
    · rw [if_pos hp, List.foldr_cons, Finset.mem_union, ih]
      constructor
      · rintro (hx | ⟨p', hp', h1, h2⟩)
        · exact ⟨p, List.mem_cons_self p ps, hp, hx⟩
        · exact ⟨p', List.mem_cons_of_mem p hp', h1, h2⟩
      · rintro ⟨p', hp', h1, h2⟩
        rcases List.mem_cons.mp hp' with rfl | hp'
        · exact Or.inl h2
        · exact Or.inr ⟨p', hp', h1, h2⟩
    · rw [if_neg hp, ih]
      constructor
      · rintro ⟨p', hmem, h1, h2⟩
        exact ⟨p', List.mem_cons_of_mem p hmem, h1, h2⟩
      · rintro ⟨p', hmem, h1, h2⟩
        rcases List.mem_cons.mp hmem with rfl | hmem
        · exact absurd h1 hp
        · exact ⟨p', hmem, h1, h2⟩

end NFA

end Ere

namespace Ere

/-- Maximum of a list of naturals. -/
def listMaxN : List Nat → Nat
  | [] => 0
  | x :: xs => max x (listMaxN xs)

lemma le_listMaxN {x : Nat} : ∀ {l : List Nat}, x ∈ l → x ≤ listMaxN l := by
  intro l
  induction l with
  | nil => intro h; cases h
  | cons y ys ih =>
    intro h
    rcases List.mem_cons.mp h with rfl | h
    · exact Nat.le_max_left _ _
    · exact le_trans (ih h) (Nat.le_max_right _ _)

lemma listMaxN_mem : ∀ {l : List Nat}, l ≠ [] → listMaxN l ∈ l := by
  intro l
  induction l with
  | nil => intro h; exact absurd rfl h
  | cons y ys ih =>
    intro _
    rw [listMaxN]
    rcases Nat.le_total y (listMaxN ys) with h | h
    · rw [Nat.max_eq_right h]
      rcases List.eq_nil_or_concat ys with rfl | _
      · rw [listMaxN] at h
        have : y = 0 := Nat.le_zero.mp h
        subst this
        exact List.mem_cons_self _ _
      · cases hys : ys with
        | nil =>
          subst hys
          rw [listMaxN] at h
          have : y = 0 := Nat.le_zero.mp h
          subst this
          exact List.mem_cons_self _ _
        | cons z zs =>
          have := ih (by simp [hys])
          rw [← hys] at *
          exact List.mem_cons_of_mem y (by rw [hys] at this ⊢; exact this)
    · rw [Nat.max_eq_left h]
      exact List.mem_cons_self _ _

lemma sublist_flatMap {γ δ : Type} {l1 l2 : List γ} (h : l1.Sublist l2) (f : γ → List δ) :
    (l1.flatMap f).Sublist (l2.flatMap f) := by
  induction h with
  | slnil => simp
  | cons a h ih =>
    rw [List.flatMap_cons]
    exact ih.trans (List.sublist_append_right _ _)
  | cons₂ a h ih =>
    rw [List.flatMap_cons, List.flatMap_cons]
    exact ih.append_left _

lemma lookupA_map_of_nodup {γ β δ : Type} [DecidableEq β] :
    ∀ (l : List γ) (g : γ → β), (l.map g).Nodup → ∀ (val : γ → δ), ∀ x ∈ l,
      lookupA (l.map (fun a => (g a, val a))) (g x) = Option.some (val x) := by
  intro l g hnd val x hx
  induction l with
  | nil => cases hx
  | cons a rest ih =>
    rw [List.map_cons, lookupA_cons]
    by_cases hgx : g a = g x
    · have hax : a = x := by
        rcases List.mem_cons.mp hx with rfl | hx'
        · rfl
        · exact absurd (List.mem_map.mpr ⟨x, hx', hgx.symm⟩)
            ((List.nodup_cons.mp (List.map_cons g a rest ▸ hnd)).1)
      subst hax
      simp [hgx]
    · rw [if_neg hgx]
      rcases List.mem_cons.mp hx with rfl | hx'
      · exact absurd rfl hgx
      · exact ih ((List.nodup_cons.mp (List.map_cons g a rest ▸ hnd)).2) hx'

namespace NFA

variable {Q : Type} [LinearOrder Q] [StateEnum Q] [Fintype Q]

lemma detValue_eq_stepSet {n : NFA Q} {S : Finset Q} {c : Nat} :
    detValue n S c = n.stepSet S c := by
  ext x
  rw [mem_detValue, stepSet, mem_epsClosure]
  constructor
  · rintro ⟨p, hp, hin, hx⟩
    rw [mem_contribs] at hp
    obtain ⟨q, hq, e, he, cs, hcs, hr, hval⟩ := hp
    rw [hval, mem_targetsClosure] at hx
    obtain ⟨t, ht, hreach⟩ := hx
    refine ⟨t, ?_, hreach⟩
    rw [moveSet, Finset.mem_biUnion]
    refine ⟨q, hq, ?_⟩
    rw [List.mem_toFinset, moveQ, mem_moveT]
    exact ⟨e, he, cs, hcs, memCS_iff.mpr ⟨p.1, hr, hin⟩, ht⟩
  · rintro ⟨t, ht, hreach⟩
    rw [moveSet, Finset.mem_biUnion] at ht
    obtain ⟨q, hq, ht⟩ := ht
    rw [List.mem_toFinset, moveQ, mem_moveT] at ht
    obtain ⟨e, he, cs, hcs, hmem, hte⟩ := ht
    rcases memCS_iff.mp hmem with ⟨r, hr, hin⟩
    refine ⟨(r, n.targetsClosure e.2), ?_, hin, ?_⟩
    · rw [mem_contribs]
      exact ⟨q, hq, e, he, cs, hcs, hr, rfl⟩
    · rw [mem_targetsClosure]
      exact ⟨t, hte, hreach⟩

lemma detCovers_false_stepSet {n : NFA Q} {S : Finset Q} {c : Nat}
    (h : detCovers n S c = false) : n.stepSet S c = ∅ := by
  rw [← detValue_eq_stepSet, detValue]
  have hnil : (contribs n S).filter (fun p => inRange c p.1) = [] := by
    rw [List.filter_eq_nil_iff]
    intro p hp
    rw [detCovers] at h
    have := List.any_eq_false.mp h p hp
    simp [this]
  rw [hnil]
  rfl

lemma detStep_boundary {n : NFA Q} {S : Finset Q} {c : Nat} {T : Finset Q}
    (h : detStep? n S c = Option.some T) :
    ∃ p ∈ detBoundaries n S, detStep? n S p = Option.some T := by
  rw [detStep?] at h
  by_cases hcov : detCovers n S c
  case neg =>
    rw [if_neg hcov] at h
    cases h
  rw [if_pos hcov] at h
  obtain ⟨p0, hp0, hin0⟩ := List.any_eq_true.mp hcov
  have hble : p0.1.1 ≤ c := (inRange_iff.mp hin0).1
  have hb0 : p0.1.1 ∈ (detBoundaries n S).filter (fun b => decide (b ≤ c)) :=
    List.mem_filter.mpr ⟨List.mem_flatMap.mpr ⟨p0, hp0, by simp⟩, by simpa using hble⟩
  have hmbs : listMaxN ((detBoundaries n S).filter (fun b => decide (b ≤ c))) ∈
      (detBoundaries n S).filter (fun b => decide (b ≤ c)) :=
    listMaxN_mem (List.ne_nil_of_mem hb0)
  set m := listMaxN ((detBoundaries n S).filter (fun b => decide (b ≤ c))) with hm
  have hmB : m ∈ detBoundaries n S := (List.mem_filter.mp hmbs).1
  have hmle : m ≤ c := by simpa using (List.mem_filter.mp hmbs).2
  have hkey : ∀ p ∈ contribs n S, inRange c p.1 = inRange m p.1 := by
    intro p hp
    rw [Bool.eq_iff_iff, inRange_iff, inRange_iff]
    constructor
    · rintro ⟨h1, h2⟩
      refine ⟨?_, le_trans hmle h2⟩
      have hmem : p.1.1 ∈ (detBoundaries n S).filter (fun b => decide (b ≤ c)) :=
        List.mem_filter.mpr ⟨List.mem_flatMap.mpr ⟨p, hp, by simp⟩, by simpa using h1⟩
      exact le_listMaxN hmem
    · rintro ⟨h1, h2⟩
      refine ⟨le_trans h1 hmle, ?_⟩
      by_contra hc2
      push_neg at hc2
      have hmem : p.1.2 + 1 ∈ (detBoundaries n S).filter (fun b => decide (b ≤ c)) :=
        List.mem_filter.mpr ⟨List.mem_flatMap.mpr ⟨p, hp, by simp⟩,
          by simp only [decide_eq_true_eq]; omega⟩
      have := le_listMaxN hmem
      omega
  have hfilter : (contribs n S).filter (fun p => inRange c p.1) =
      (contribs n S).filter (fun p => inRange m p.1) :=
    List.filter_congr (fun p hp => hkey p hp)
  have hcov' : detCovers n S m = true := by
    rw [detCovers, List.any_eq_true]
    refine ⟨p0, hp0, ?_⟩
    rw [← hkey p0 hp0]
    exact hin0
  refine ⟨m, hmB, ?_⟩
  rw [detStep?, if_pos hcov']
  rw [Option.some.injEq] at h ⊢
  rw [← h, detValue, detValue, hfilter]

lemma detBoundaries_length (n : NFA Q) (S : Finset Q) :
    (detBoundaries n S).length = 2 * (contribs n S).length := by
  rw [detBoundaries]
  induction contribs n S with
  | nil => rfl
  | cons p ps ih =>
    rw [List.flatMap_cons, List.length_append, ih, List.length_cons]
    simp only [List.length_cons, List.length_nil]
    omega

/-- A uniform bound on the number of subsets pushed for one processed
subset during determinization. -/
def detE (n : NFA Q) : Nat := 2 * ((StateEnum.elems (Q := Q)).flatMap (contribsOf n)).length

lemma detSuccs_length_le (n : NFA Q) (S : Finset Q) : (detSuccs n S).length ≤ detE n := by
  have h1 : (detSuccs n S).length ≤ (detBoundaries n S).length :=
    List.length_filterMap_le _ _
  have h2 : (contribs n S).length ≤ ((StateEnum.elems (Q := Q)).flatMap (contribsOf n)).length :=
    (sublist_flatMap (List.filter_sublist _) (contribsOf n)).length_le
  rw [detBoundaries_length] at h1
  rw [detE]
  omega

end NFA

end Ere

namespace Ere

/-- Modelled from the spec (sections 3, 4.4 and 4.5): the deterministic
automaton produced by determinize.  dfa.rs belongs to this repository but
is not among the given sources, so the DFA is embedded from the spec: it
stores one initial state, a set of final states, and a per-source
transition table whose rows are range-keyed; a row is represented here by
its pointwise lookup function, stepping on token c to the target of the
unique transition range containing c, if any. -/
structure DFA (R : Type) where
  initial : R
  finals : Finset R
  table : List (R × (Nat → Option R))

namespace DFA

variable {R : Type} [DecidableEq R]

/-- One DFA step (spec section 4.4): look up the row of the current state
and locate the token among its ranges. -/
def stepD (d : DFA R) (r : R) (c : Nat) : Option R :=
  (lookupA d.table r).bind (fun row => row c)

/-- The recognizer run of the DFA (spec section 4.5); none is the
rejected configuration. -/
def acceptsFromD (d : DFA R) : Option R → List Nat → Bool
  | Option.none, _ => false
  | Option.some r, [] => decide (r ∈ d.finals)
  | Option.some r, c :: w => d.acceptsFromD (d.stepD r c) w

/-- DFA acceptance through the recognizer interface. -/
def acceptsD (d : DFA R) (w : List Nat) : Bool := d.acceptsFromD (Option.some d.initial) w

end DFA

namespace NFA

variable {Q : Type} [LinearOrder Q] [StateEnum Q] [Fintype Q]
variable {R : Type} [DecidableEq R]

/-- Sufficient fuel for the determinization worklist. -/
def detFuel (n : NFA Q) (f : Finset Q → R) : Nat :=
  crawlWeight (Finset.univ.image f) (detE n) ∅ + 2

/-- The subsets processed by the determinization worklist of nfa.rs:
the traversal starts from the ε-closure of the initial states, interns
every subset through f, and pushes the values of the per-subset range
map (enumerated by detSuccs). -/
def detStates (n : NFA Q) (f : Finset Q → R) : List (Finset Q) :=
  crawl (detSuccs n) f (detFuel n f) ∅ [n.epsClosure n.initials.toFinset]

/-- determinize from nfa.rs: the subset construction.  Every processed
subset S becomes the DFA state f S; its row is the pointwise lookup of the
range map built by determinize_transitions_for; it is final iff S meets
the NFA's final states. -/
def determinize (n : NFA Q) (f : Finset Q → R) : DFA R :=
  { initial := f (n.epsClosure n.initials.toFinset)
  , finals := (((detStates n f).filter
      (fun S => decide ((S ∩ n.finals.toFinset).Nonempty))).map f).toFinset
  , table := (detStates n f).map (fun S => (f S, fun c => (detStep? n S c).map f)) }

lemma det_hB (n : NFA Q) (f : Finset Q → R) :
    ∀ S : Finset Q, f S ∈ Finset.univ.image f :=
  fun S => Finset.mem_image.mpr ⟨S, Finset.mem_univ S, rfl⟩

lemma det_hInv (n : NFA Q) (f : Finset Q → R) :
    CrawlInv (Finset.univ.image f) (detE n) (detFuel n f) ∅
      [n.epsClosure n.initials.toFinset] := by
  simp only [CrawlInv, detFuel, List.length_cons, List.length_nil]
  omega

lemma mem_determinize_finals {n : NFA Q} {f : Finset Q → R} (hf : Function.Injective f)
    {S : Finset Q} (hS : S ∈ detStates n f) :
    f S ∈ (n.determinize f).finals ↔ (S ∩ n.finals.toFinset).Nonempty := by
  rw [determinize]
  simp only [List.mem_toFinset, List.mem_map]
  constructor
  · rintro ⟨S', hS', heq⟩
    rcases List.mem_filter.mp hS' with ⟨hS'mem, hdec⟩
    have hss : S' = S := hf heq
    subst hss
    simpa using hdec
  · intro hne
    exact ⟨S, List.mem_filter.mpr ⟨hS, by simpa using hne⟩, rfl⟩

lemma determinize_lookup {n : NFA Q} {f : Finset Q → R}
    {S : Finset Q} (hS : S ∈ detStates n f) :
    lookupA (n.determinize f).table (f S) =
      Option.some (fun c => (detStep? n S c).map f) := by
  rw [determinize]
  exact lookupA_map_of_nodup (detStates n f) f
    (crawl_imageNodup (detSuccs n) f (detFuel n f) ∅ _)
    (fun S c => (detStep? n S c).map f) S hS

lemma detStep?_some_eq {n : NFA Q} {S T : Finset Q} {c : Nat}
    (h : detStep? n S c = Option.some T) : T = n.stepSet S c := by
  rw [detStep?] at h
  by_cases hcov : detCovers n S c
  · rw [if_pos hcov, Option.some.injEq] at h
    rw [← h, detValue_eq_stepSet]
  · rw [if_neg hcov] at h
    cases h

lemma detStep?_none_eq {n : NFA Q} {S : Finset Q} {c : Nat}
    (h : detStep? n S c = Option.none) : n.stepSet S c = ∅ := by
  rw [detStep?] at h
  by_cases hcov : detCovers n S c
  · rw [if_pos hcov] at h
    cases h
  · exact detCovers_false_stepSet (Bool.not_eq_true _ ▸ hcov)

lemma detStep_mem_states {n : NFA Q} {f : Finset Q → R} (hf : Function.Injective f)
    {S T : Finset Q} (hS : S ∈ detStates n f) {c : Nat}
    (h : detStep? n S c = Option.some T) : T ∈ detStates n f := by
  obtain ⟨p, hpB, hp⟩ := detStep_boundary h
  have hTsucc : T ∈ detSuccs n S := List.mem_filterMap.mpr ⟨p, hpB, hp⟩
  rcases crawl_closed (detSuccs n) f hf (det_hB n f) (detSuccs_length_le n)
    (detFuel n f) ∅ _ (det_hInv n f) S hS T hTsucc with h' | h'
  · exact absurd h' (Finset.not_mem_empty _)
  · exact h'

lemma determinize_run (n : NFA Q) (f : Finset Q → R) (hf : Function.Injective f) :
    ∀ (w : List Nat) (S : Finset Q), S ∈ detStates n f →
      (n.determinize f).acceptsFromD (Option.some (f S)) w = n.acceptsFrom S w := by
  intro w
  induction w with
  | nil =>
    intro S hS
    rw [DFA.acceptsFromD, acceptsFrom, List.foldl_nil, decide_eq_decide]
    exact mem_determinize_finals hf hS
  | cons c w ih =>
    intro S hS
    rw [DFA.acceptsFromD, acceptsFrom_cons]
    have hstep : (n.determinize f).stepD (f S) c = (detStep? n S c).map f := by
      rw [DFA.stepD, determinize_lookup hS]
      rfl
    rw [hstep]
    cases hd : detStep? n S c with
    | none =>
      rw [detStep?_none_eq hd, Option.map_none']
      rw [DFA.acceptsFromD]
      rw [acceptsFrom_empty]
    | some T =>
      rw [Option.map_some']
      rw [← detStep?_some_eq hd]
      exact ih T (detStep_mem_states hf hS hd)

/-- C1 amended: for every NFA and every injective subset-interning
function f, the DFA returned by determinize accepts exactly the strings
the NFA accepts. -/
theorem c1_determinize (n : NFA Q) (f : Finset Q → R) (hf : Function.Injective f)
    (w : List Nat) : (n.determinize f).acceptsD w = n.accepts w := by
  rw [DFA.acceptsD, accepts, startSet]
  have hs0 : n.epsClosure n.initials.toFinset ∈ detStates n f := by
    rcases crawl_stack_mem (detSuccs n) f hf (det_hB n f) (detSuccs_length_le n)
      (detFuel n f) ∅ _ (det_hInv n f) _ (List.mem_cons_self _ _) with h | h
    · exact absurd h (Finset.not_mem_empty _)
    · exact h
  exact determinize_run n f hf w _ hs0

end NFA

/-- A two-state NFA accepting exactly the one-letter string "a"
(0 --{a}--> 1, initial 0, final 1). -/
def exA : NFA (Fin 2) := ⟨[(0, [(Option.some [(97, 97)], [1])]), (1, [])], [0], [1]⟩

/-- C1 counterexample: with the constant (hence deterministic but
non-injective) subset-interning function, the determinized automaton of
exA rejects "a" although exA accepts it: determinism of f alone does not
make determinization language-preserving. -/
theorem c1_counterexample :
    (exA.determinize (fun _ => (0 : Nat))).acceptsD [97] = false
    ∧ exA.accepts [97] = true := by decide

/-- An injective encoding of subsets of Fin 2 as naturals. -/
def exInj (S : Finset (Fin 2)) : Nat :=
  (if (0 : Fin 2) ∈ S then 1 else 0) + (if (1 : Fin 2) ∈ S then 2 else 0)

theorem c1_determinize_w :
    Function.Injective exInj
    ∧ (exA.determinize exInj).acceptsD [97] = exA.accepts [97] :=
  ⟨by decide, NFA.c1_determinize exA exInj (by decide) [97]⟩

end Ere

namespace Ere

/-- BTreeMap::entry(k).or_default() followed by an in-place update of the
value: if the key is present its value is updated, otherwise the key is
inserted with the updated default. -/
def entryUpdate {K α : Type} [DecidableEq K] : List (K × α) → K → α → (α → α) → List (K × α)
  | [], k, dflt, upd => [(k, upd dflt)]
  | (k', v) :: rest, k, dflt, upd =>
    if k' = k then (k', upd v) :: rest else (k', v) :: entryUpdate rest k dflt upd

lemma lookupA_entryUpdate_self {K α : Type} [DecidableEq K] :
    ∀ (l : List (K × α)) (k : K) (d : α) (u : α → α),
      lookupA (entryUpdate l k d u) k = Option.some (u ((lookupA l k).getD d)) := by
  intro l k d u
  induction l with
  | nil => simp [entryUpdate, lookupA]
  | cons p rest ih =>
    rcases p with ⟨k', v⟩
    rw [entryUpdate]
    by_cases hk : k' = k
    · rw [if_pos hk, lookupA_cons, lookupA_cons, if_pos hk, if_pos hk]
      rfl
    · rw [if_neg hk, lookupA_cons, lookupA_cons, if_neg hk, if_neg hk, ih]

lemma lookupA_entryUpdate_ne {K α : Type} [DecidableEq K] :
    ∀ (l : List (K × α)) (k k' : K) (d : α) (u : α → α), k ≠ k' →
      lookupA (entryUpdate l k d u) k' = lookupA l k' := by
  intro l k k' d u hne
  induction l with
  | nil => simp [entryUpdate, lookupA_cons, hne, lookupA]
  | cons p rest ih =>
    rcases p with ⟨k0, v⟩
    rw [entryUpdate]
    by_cases hk : k0 = k
    · rw [if_pos hk, lookupA_cons, lookupA_cons]
      subst hk
      rw [if_neg hne, if_neg hne]
    · rw [if_neg hk, lookupA_cons, lookupA_cons]
      by_cases hk' : k0 = k'
      · rw [if_pos hk', if_pos hk']
      · rw [if_neg hk', if_neg hk', ih]

lemma entryUpdate_of_absent {K α : Type} [DecidableEq K] :
    ∀ (l : List (K × α)) (k : K) (d : α) (u : α → α), lookupA l k = Option.none →
      entryUpdate l k d u = l ++ [(k, u d)] := by
  intro l k d u h
  induction l with
  | nil => simp [entryUpdate]
  | cons p rest ih =>
    rcases p with ⟨k0, v⟩
    rw [lookupA_cons] at h
    by_cases hk : k0 = k
    · rw [if_pos hk] at h
      cases h
    · rw [if_neg hk] at h
      rw [entryUpdate, if_neg hk, List.cons_append, ih h]

/-- BTreeSet::insert on a set modelled as a duplicate-free-by-construction
list. -/
def insertSet {γ : Type} [DecidableEq γ] (x : γ) (l : List γ) : List γ :=
  if x ∈ l then l else l ++ [x]

/-- BTreeSet::extend. -/
def extendSet {γ : Type} [DecidableEq γ] (l new : List γ) : List γ :=
  new.foldl (fun acc x => insertSet x acc) l

lemma mem_insertSet {γ : Type} [DecidableEq γ] {x y : γ} {l : List γ} :
    y ∈ insertSet x l ↔ y ∈ l ∨ y = x := by
  rw [insertSet]
  by_cases hx : x ∈ l
  · rw [if_pos hx]
    constructor
    · exact Or.inl
    · rintro (h | rfl)
      · exact h
      · exact hx
  · rw [if_neg hx]
    simp

lemma mem_extendSet {γ : Type} [DecidableEq γ] {y : γ} :
    ∀ {new l : List γ}, y ∈ extendSet l new ↔ y ∈ l ∨ y ∈ new := by
  intro new
  induction new with
  | nil => simp [extendSet]
  | cons x xs ih =>
    intro l
    rw [extendSet, List.foldl_cons]
    rw [show List.foldl (fun acc x => insertSet x acc) (insertSet x l) xs =
      extendSet (insertSet x l) xs from rfl]
    rw [ih, mem_insertSet, List.mem_cons]
    tauto

lemma lookupA_eq_of_mem {K α : Type} [DecidableEq K] {l : List (K × α)}
    (hnd : (l.map Prod.fst).Nodup) {k : K} {v : α} (h : (k, v) ∈ l) :
    lookupA l k = Option.some v := by
  induction l with
  | nil => cases h
  | cons p rest ih =>
    rw [List.map_cons, List.nodup_cons] at hnd
    rw [lookupA_cons]
    rcases List.mem_cons.mp h with rfl | h'
    · rw [if_pos rfl]
    · by_cases hk : p.1 = k
      · exact absurd (List.mem_map.mpr ⟨(k, v), h', by rw [hk]⟩) hnd.1
      · rw [if_neg hk]
        exact ih hnd.2 h'

end Ere

namespace Ere

lemma mem_of_lookupA {K α : Type} [DecidableEq K] {l : List (K × α)} {k : K} {v : α}
    (h : lookupA l k = Option.some v) : (k, v) ∈ l := by
  rw [lookupA] at h
  cases hf : l.find? (fun p => decide (p.1 = k)) with
  | none =>
    rw [hf] at h
    cases h
  | some p =>
    rw [hf] at h
    have hmem := List.mem_of_find?_eq_some hf
    have hpred := List.find?_some hf
    simp only [decide_eq_true_eq] at hpred
    simp only [Option.map_some', Option.some.injEq] at h
    have : (k, v) = p := by
      rcases p with ⟨k', v'⟩
      simp only at hpred h
      rw [hpred, h]
    rw [this]
    exact hmem

lemma lookupA_none_of_not_key {K α : Type} [DecidableEq K] {l : List (K × α)} {k : K}
    (h : k ∉ l.map Prod.fst) : lookupA l k = Option.none := by
  cases h' : lookupA l k with
  | none => rfl
  | some v =>
    exact absurd (List.mem_map.mpr ⟨(k, v), mem_of_lookupA h', rfl⟩) h

lemma lookupA_isSome_of_key {K α : Type} [DecidableEq K] {l : List (K × α)} {k : K}
    (h : k ∈ l.map Prod.fst) : (lookupA l k).isSome = true := by
  rcases List.mem_map.mp h with ⟨p, hp, hk⟩
  induction l with
  | nil => cases hp
  | cons p0 rest ih =>
    rw [lookupA_cons]
    by_cases h0 : p0.1 = k
    · rw [if_pos h0]
      rfl
    · rw [if_neg h0]
      rcases List.mem_cons.mp hp with rfl | hp'
      · exact absurd hk h0
      · exact ih (List.mem_map.mpr ⟨p, hp', hk⟩) hp'

namespace NFA

variable {Q : Type} [LinearOrder Q] [StateEnum Q]

lemma transOf_cases (a : NFA Q) (q : Q) :
    a.transOf q = [] ∨ (q, a.transOf q) ∈ a.trans := by
  rw [transOf, getTrans?]
  cases h : lookupA a.trans q with
  | none => exact Or.inl rfl
  | some ts => exact Or.inr (mem_of_lookupA h)

/-- All states mentioned by an automaton: transition-table keys, all
transition targets, initial and final states. -/
def statesOf (a : NFA Q) : Finset Q :=
  (a.trans.map Prod.fst).toFinset
  ∪ (a.trans.flatMap (fun p => p.2.flatMap (fun e => e.2))).toFinset
  ∪ a.initials.toFinset ∪ a.finals.toFinset

lemma target_mem_statesOf {a : NFA Q} {q : Q} {ts : Transitions Q} (h : (q, ts) ∈ a.trans)
    {e : Label × List Q} (he : e ∈ ts) {x : Q} (hx : x ∈ e.2) : x ∈ statesOf a := by
  rw [statesOf]
  refine Finset.mem_union_left _ (Finset.mem_union_left _ (Finset.mem_union_right _ ?_))
  rw [List.mem_toFinset, List.mem_flatMap]
  exact ⟨(q, ts), h, List.mem_flatMap.mpr ⟨e, he, hx⟩⟩

lemma key_mem_statesOf {a : NFA Q} {q : Q} (h : q ∈ a.trans.map Prod.fst) :
    q ∈ statesOf a := by
  rw [statesOf]
  exact Finset.mem_union_left _ (Finset.mem_union_left _ (Finset.mem_union_left _
    (List.mem_toFinset.mpr h)))

lemma initials_subset_statesOf {a : NFA Q} {q : Q} (h : q ∈ a.initials) :
    q ∈ statesOf a := by
  rw [statesOf]
  exact Finset.mem_union_left _ (Finset.mem_union_right _ (List.mem_toFinset.mpr h))

lemma finals_subset_statesOf {a : NFA Q} {q : Q} (h : q ∈ a.finals) :
    q ∈ statesOf a := by
  rw [statesOf]
  exact Finset.mem_union_right _ (List.mem_toFinset.mpr h)

lemma epsSucc_subset_statesOf (a : NFA Q) (q x : Q) (hx : x ∈ a.epsSucc q) :
    x ∈ statesOf a := by
  rw [epsSucc] at hx
  cases hf : (a.transOf q).find? (fun e => decide (e.1 = Option.none)) with
  | none =>
    rw [hf] at hx
    cases hx
  | some e =>
    rw [hf] at hx
    have hmem := List.mem_of_find?_eq_some hf
    rcases transOf_cases a q with hcase | hcase
    · rw [hcase] at hmem
      cases hmem
    · exact target_mem_statesOf hcase hmem hx

lemma moveQ_subset_statesOf (a : NFA Q) (q : Q) (c : Nat) (x : Q)
    (hx : x ∈ a.moveQ q c) : x ∈ statesOf a := by
  rw [moveQ, mem_moveT] at hx
  obtain ⟨e, he, s, _, _, hx⟩ := hx
  rcases transOf_cases a q with hcase | hcase
  · rw [hcase] at he
    cases he
  · exact target_mem_statesOf hcase he hx

end NFA

end Ere

namespace Ere

namespace NFA

variable {Q R : Type} [LinearOrder Q] [StateEnum Q] [LinearOrder R] [StateEnum R]

/-- The inner loop of mapped_union for one source state of the other
automaton: entry(label).or_default() extended with the renamed targets,
for every (label, targets) entry. -/
def mergeTransEntry (f : R → Q) (cur : Transitions Q) (ts : Transitions R) : Transitions Q :=
  ts.foldl (fun acc e => entryUpdate acc e.1 [] (fun tgts => extendSet tgts (e.2.map f))) cur

/-- mapped_union from nfa.rs: add the other automaton to self, renaming
its states with f; initial and final states are extended likewise. -/
def mapped_union (a : NFA Q) (b : NFA R) (f : R → Q) : NFA Q :=
  { trans := b.trans.foldl
      (fun acc p => entryUpdate acc (f p.1) [] (fun cur => mergeTransEntry f cur p.2)) a.trans
  , initials := extendSet a.initials (b.initials.map f)
  , finals := extendSet a.finals (b.finals.map f) }

/-- The BTreeMap invariants every source-built automaton value satisfies:
state keys are pairwise distinct, and the label keys within each state
are pairwise distinct. -/
def WellKeyed (b : NFA R) : Prop :=
  (b.trans.map Prod.fst).Nodup ∧ ∀ p ∈ b.trans, (p.2.map Prod.fst).Nodup

lemma mergeTransEntry_fresh (f : R → Q) :
    ∀ (ts : Transitions R) (acc : Transitions Q),
      (∀ e ∈ ts, lookupA acc e.1 = Option.none) → (ts.map Prod.fst).Nodup →
      mergeTransEntry f acc ts =
        acc ++ ts.map (fun e => (e.1, extendSet [] (e.2.map f))) := by
  intro ts
  induction ts with
  | nil =>
    intro acc _ _
    rw [mergeTransEntry]
    simp
  | cons e rest ih =>
    intro acc habs hnd
    rw [List.map_cons, List.nodup_cons] at hnd
    rw [mergeTransEntry, List.foldl_cons,
      entryUpdate_of_absent _ _ _ _ (habs e (List.mem_cons_self e rest))]
    rw [show List.foldl (fun acc e => entryUpdate acc e.1 []
        (fun tgts => extendSet tgts (e.2.map f)))
        (acc ++ [(e.1, extendSet [] (e.2.map f))]) rest =
      mergeTransEntry f (acc ++ [(e.1, extendSet [] (e.2.map f))]) rest from rfl]
    rw [ih _ ?fresh hnd.2]
    · rw [List.append_assoc]
      rfl
    case fresh =>
      intro e' he'
      rw [lookupA_append, habs e' (List.mem_cons_of_mem e he'), lookupA_cons]
      have hne : e.1 ≠ e'.1 := by
        intro heq
        exact hnd.1 (List.mem_map.mpr ⟨e', he', heq.symm⟩)
      rw [if_neg (by exact hne)]
      rfl

lemma mu_trans_lookup_skip (f : R → Q) :
    ∀ (l : List (R × Transitions R)) (acc : List (Q × Transitions Q)) (q : Q),
      (∀ p ∈ l, f p.1 ≠ q) →
      lookupA (l.foldl (fun acc p => entryUpdate acc (f p.1) []
        (fun cur => mergeTransEntry f cur p.2)) acc) q = lookupA acc q := by
  intro l
  induction l with
  | nil =>
    intro acc q _
    rfl
  | cons p rest ih =>
    intro acc q hne
    rw [List.foldl_cons, ih _ q (fun p' hp' => hne p' (List.mem_cons_of_mem p hp'))]
    exact lookupA_entryUpdate_ne _ _ _ _ _ (hne p (List.mem_cons_self p rest))

lemma mu_trans_lookup_key (f : R → Q) (hf : Function.Injective f) :
    ∀ (l : List (R × Transitions R)) (acc : List (Q × Transitions Q)) (r : R)
      (ts : Transitions R), (r, ts) ∈ l → (l.map Prod.fst).Nodup →
      lookupA (l.foldl (fun acc p => entryUpdate acc (f p.1) []
        (fun cur => mergeTransEntry f cur p.2)) acc) (f r) =
      Option.some (mergeTransEntry f ((lookupA acc (f r)).getD []) ts) := by
  intro l
  induction l with
  | nil =>
    intro acc r ts h _
    cases h
  | cons p rest ih =>
    intro acc r ts hmem hnd
    rw [List.map_cons, List.nodup_cons] at hnd
    rw [List.foldl_cons]
    rcases List.mem_cons.mp hmem with heq | hmem'
    · obtain ⟨hp1, hp2⟩ : p.1 = r ∧ p.2 = ts := by
        rw [← heq]
        exact ⟨rfl, rfl⟩
      rw [mu_trans_lookup_skip f rest _ (f r) ?hskip]
      · rw [hp1, lookupA_entryUpdate_self, hp2]
      case hskip =>
        intro p' hp' hfeq
        have hkey : p'.1 = r := hf hfeq
        rw [← hp1] at hkey
        exact hnd.1 (List.mem_map.mpr ⟨p', hp', hkey⟩)
    · rw [ih _ r ts hmem' hnd.2]
      have hne : f p.1 ≠ f r := by
        intro heq
        have : p.1 = r := hf heq
        subst this
        exact hnd.1 (List.mem_map.mpr ⟨(p.1, ts), hmem', rfl⟩)
      rw [lookupA_entryUpdate_ne _ _ _ _ _ hne]

variable {a : NFA Q} {b : NFA R} {f : R → Q}

lemma mu_transOf_out {q : Q} (hq : ∀ r : R, f r ≠ q) :
    (mapped_union a b f).transOf q = a.transOf q := by
  rw [transOf, transOf, getTrans?, getTrans?, mapped_union]
  rw [mu_trans_lookup_skip f b.trans a.trans q (fun p _ => hq p.1)]

lemma mu_transOf_key (hf : Function.Injective f)
    (hdisj : ∀ r : R, f r ∉ statesOf a) (hwf : WellKeyed b)
    {r : R} {ts : Transitions R} (h : lookupA b.trans r = Option.some ts) :
    (mapped_union a b f).transOf (f r) =
      ts.map (fun e => (e.1, extendSet [] (e.2.map f))) := by
  have hmem : (r, ts) ∈ b.trans := mem_of_lookupA h
  rw [transOf, getTrans?, mapped_union]
  rw [mu_trans_lookup_key f hf b.trans a.trans r ts hmem hwf.1]
  have ha : lookupA a.trans (f r) = Option.none :=
    lookupA_none_of_not_key (fun hk => hdisj r (key_mem_statesOf hk))
  rw [ha]
  rw [show (Option.none : Option (Transitions Q)).getD [] = [] from rfl]
  rw [mergeTransEntry_fresh f ts [] (fun _ _ => rfl) (hwf.2 _ hmem)]
  rfl

lemma mu_transOf_nonkey (hf : Function.Injective f)
    (hdisj : ∀ r : R, f r ∉ statesOf a)
    {r : R} (h : lookupA b.trans r = Option.none) :
    (mapped_union a b f).transOf (f r) = [] := by
  rw [transOf, getTrans?, mapped_union]
  rw [mu_trans_lookup_skip f b.trans a.trans (f r) ?hskip]
  · rw [lookupA_none_of_not_key (fun hk => hdisj r (key_mem_statesOf hk))]
    rfl
  case hskip =>
    intro p hp hfeq
    have hkey : p.1 = r := hf hfeq
    subst hkey
    have hsome := lookupA_isSome_of_key (l := b.trans) (List.mem_map.mpr ⟨p, hp, rfl⟩)
    rw [h] at hsome
    cases hsome

lemma mu_epsSucc_out {q : Q} (hq : ∀ r : R, f r ≠ q) :
    (mapped_union a b f).epsSucc q = a.epsSucc q := by
  rw [epsSucc, epsSucc, mu_transOf_out hq]

lemma mu_moveQ_out {q : Q} (hq : ∀ r : R, f r ≠ q) (c : Nat) :
    (mapped_union a b f).moveQ q c = a.moveQ q c := by
  rw [moveQ, moveQ, mu_transOf_out hq]

lemma mu_epsSucc_image (hf : Function.Injective f)
    (hdisj : ∀ r : R, f r ∉ statesOf a) (hwf : WellKeyed b) (r : R) {x : Q} :
    x ∈ (mapped_union a b f).epsSucc (f r) ↔ ∃ y ∈ b.epsSucc r, x = f y := by
  cases hb : lookupA b.trans r with
  | none =>
    rw [epsSucc, mu_transOf_nonkey hf hdisj hb]
    rw [epsSucc, transOf, getTrans?, hb]
    simp
  | some ts =>
    rw [epsSucc, mu_transOf_key hf hdisj hwf hb]
    rw [epsSucc, transOf, getTrans?, hb]
    rw [show (Option.some ts).getD [] = ts from rfl]
    rw [List.find?_map]
    rw [show ((fun e : Label × List Q => decide (e.1 = (Option.none : Label))) ∘
        (fun e : Label × List R => ((e.1 : Label), extendSet ([] : List Q) (e.2.map f)))) =
      (fun e : Label × List R => decide (e.1 = (Option.none : Label))) from rfl]
    cases hfind : ts.find? (fun e => decide (e.1 = (Option.none : Label))) with
    | none => simp
    | some e =>
      rw [Option.map_some']
      rw [show (match Option.some ((e.1 : Label), extendSet ([] : List Q) (e.2.map f)) with
          | Option.none => ([] : List Q)
          | Option.some e => e.2) = extendSet ([] : List Q) (e.2.map f) from rfl]
      rw [mem_extendSet]
      constructor
      · rintro (h | h)
        · cases h
        · rcases List.mem_map.mp h with ⟨y, hy, rfl⟩
          exact ⟨y, hy, rfl⟩
      · rintro ⟨y, hy, rfl⟩
        exact Or.inr (List.mem_map.mpr ⟨y, hy, rfl⟩)

lemma mu_moveQ_image (hf : Function.Injective f)
    (hdisj : ∀ r : R, f r ∉ statesOf a) (hwf : WellKeyed b) (r : R) (c : Nat) {x : Q} :
    x ∈ (mapped_union a b f).moveQ (f r) c ↔ ∃ y ∈ b.moveQ r c, x = f y := by
  cases hb : lookupA b.trans r with
  | none =>
    rw [moveQ, mu_transOf_nonkey hf hdisj hb]
    rw [moveQ, transOf, getTrans?, hb]
    rw [show (Option.none : Option (Transitions R)).getD [] = [] from rfl]
    simp [moveT]
  | some ts =>
    rw [moveQ, mu_transOf_key hf hdisj hwf hb]
    rw [moveQ, transOf, getTrans?, hb]
    rw [show (Option.some ts).getD [] = ts from rfl]
    constructor
    · intro hx
      rw [mem_moveT] at hx
      obtain ⟨e', he', s, hs, hmem, hxin⟩ := hx
      rcases List.mem_map.mp he' with ⟨e, he, rfl⟩
      rw [mem_extendSet] at hxin
      rcases hxin with h | h
      · cases h
      · rcases List.mem_map.mp h with ⟨y, hy, rfl⟩
        exact ⟨y, mem_moveT.mpr ⟨e, he, s, hs, hmem, hy⟩, rfl⟩
    · rintro ⟨y, hy, rfl⟩
      rw [mem_moveT] at hy
      obtain ⟨e, he, s, hs, hmem, hyin⟩ := hy
      exact mem_moveT.mpr ⟨(e.1, extendSet [] (e.2.map f)),
        List.mem_map.mpr ⟨e, he, rfl⟩, s, hs, hmem,
        mem_extendSet.mpr (Or.inr (List.mem_map.mpr ⟨y, hyin, rfl⟩))⟩

end NFA

end Ere

namespace Ere

namespace NFA

variable {Q R : Type} [LinearOrder Q] [StateEnum Q] [Fintype Q]
variable [LinearOrder R] [StateEnum R] [Fintype R]
variable {a : NFA Q} {b : NFA R} {f : R → Q}

lemma moveSet_subset_statesOf (a : NFA Q) (S : Finset Q) (c : Nat) :
    a.moveSet S c ⊆ statesOf a := by
  intro x hx
  rw [moveSet, Finset.mem_biUnion] at hx
  obtain ⟨q, _, hx⟩ := hx
  exact moveQ_subset_statesOf a q c x (List.mem_toFinset.mp hx)

lemma closure_subset_statesOf (a : NFA Q) {S : Finset Q} (hS : S ⊆ statesOf a) :
    a.epsClosure S ⊆ statesOf a := by
  intro x hx
  rcases mem_epsClosure.mp hx with ⟨s, hs, hreach⟩
  clear hx
  induction hreach with
  | refl => exact hS hs
  | tail hab hbc ih => exact epsSucc_subset_statesOf a _ _ hbc

lemma stepSet_subset_statesOf (a : NFA Q) (S : Finset Q) (c : Nat) :
    a.stepSet S c ⊆ statesOf a :=
  closure_subset_statesOf a (moveSet_subset_statesOf a S c)

lemma mu_reach_out_fwd (hdisj : ∀ r : R, f r ∉ statesOf a) :
    ∀ {q x : Q}, (mapped_union a b f).EpsReach q x → (∀ r, f r ≠ q) →
      a.EpsReach q x ∧ ∀ r, f r ≠ x := by
  intro q x h
  induction h with
  | refl => exact fun hq => ⟨Relation.ReflTransGen.refl, hq⟩
  | @tail m y hqb hbx ih =>
    intro hq
    obtain ⟨hr, hmid⟩ := ih hq
    have hx : y ∈ a.epsSucc m := by
      rw [← mu_epsSucc_out hmid]
      exact hbx
    exact ⟨hr.tail hx, fun r heq => hdisj r (heq ▸ epsSucc_subset_statesOf a _ _ hx)⟩

lemma mu_reach_out_bwd (hdisj : ∀ r : R, f r ∉ statesOf a) :
    ∀ {q x : Q}, a.EpsReach q x → (∀ r, f r ≠ q) →
      (mapped_union a b f).EpsReach q x ∧ ∀ r, f r ≠ x := by
  intro q x h
  induction h with
  | refl => exact fun hq => ⟨Relation.ReflTransGen.refl, hq⟩
  | @tail m y hqb hbx ih =>
    intro hq
    obtain ⟨hr, hmid⟩ := ih hq
    have hx : y ∈ (mapped_union a b f).epsSucc m := by
      rw [mu_epsSucc_out hmid]
      exact hbx
    exact ⟨hr.tail hx, fun r heq => hdisj r (heq ▸ epsSucc_subset_statesOf a _ _ hbx)⟩

lemma mu_reach_image_fwd (hf : Function.Injective f)
    (hdisj : ∀ r : R, f r ∉ statesOf a) (hwf : WellKeyed b) :
    ∀ {y x : Q}, (mapped_union a b f).EpsReach y x → ∀ r : R, y = f r →
      ∃ r', b.EpsReach r r' ∧ x = f r' := by
  intro y x h
  induction h with
  | refl => exact fun r hy => ⟨r, Relation.ReflTransGen.refl, hy⟩
  | tail hqb hbx ih =>
    intro r hy
    obtain ⟨r', hr', hmid⟩ := ih r hy
    rw [hmid] at hbx
    obtain ⟨y', hy', hx⟩ := (mu_epsSucc_image hf hdisj hwf r').mp hbx
    exact ⟨y', hr'.tail hy', hx⟩

lemma mu_reach_image_bwd (hf : Function.Injective f)
    (hdisj : ∀ r : R, f r ∉ statesOf a) (hwf : WellKeyed b)
    {r r' : R} (h : b.EpsReach r r') :
    (mapped_union a b f).EpsReach (f r) (f r') := by
  induction h with
  | refl => exact Relation.ReflTransGen.refl
  | tail hqb hbx ih =>
    exact ih.tail ((mu_epsSucc_image hf hdisj hwf _).mpr ⟨_, hbx, rfl⟩)

lemma mu_closure_decomp (hf : Function.Injective f)
    (hdisj : ∀ r : R, f r ∉ statesOf a) (hwf : WellKeyed b)
    (SA : Finset Q) (hSA : SA ⊆ statesOf a) (SB : Finset R) :
    (mapped_union a b f).epsClosure (SA ∪ SB.image f) =
      a.epsClosure SA ∪ (b.epsClosure SB).image f := by
  ext x
  rw [mem_epsClosure, Finset.mem_union, mem_epsClosure, Finset.mem_image]
  constructor
  · rintro ⟨s, hs, hreach⟩
    rcases Finset.mem_union.mp hs with hsA | hsB
    · have hout : ∀ r, f r ≠ s := fun r heq => hdisj r (heq ▸ hSA hsA)
      exact Or.inl ⟨s, hsA, (mu_reach_out_fwd hdisj hreach hout).1⟩
    · rcases Finset.mem_image.mp hsB with ⟨rb, hrb, hfeq⟩
      obtain ⟨r', hr', hx⟩ := mu_reach_image_fwd hf hdisj hwf hreach rb hfeq.symm
      exact Or.inr ⟨r', mem_epsClosure.mpr ⟨rb, hrb, hr'⟩, hx.symm⟩
  · rintro (⟨s, hsA, hreach⟩ | ⟨r', hr', hfeq⟩)
    · have hout : ∀ r, f r ≠ s := fun r heq => hdisj r (heq ▸ hSA hsA)
      exact ⟨s, Finset.mem_union_left _ hsA, (mu_reach_out_bwd hdisj hreach hout).1⟩
    · rcases mem_epsClosure.mp hr' with ⟨rb, hrb, hreachb⟩
      exact ⟨f rb, Finset.mem_union_right _ (Finset.mem_image.mpr ⟨rb, hrb, rfl⟩),
        hfeq ▸ mu_reach_image_bwd hf hdisj hwf hreachb⟩

lemma mu_moveSet_decomp (hf : Function.Injective f)
    (hdisj : ∀ r : R, f r ∉ statesOf a) (hwf : WellKeyed b)
    (SA : Finset Q) (hSA : SA ⊆ statesOf a) (SB : Finset R) (c : Nat) :
    (mapped_union a b f).moveSet (SA ∪ SB.image f) c =
      a.moveSet SA c ∪ (b.moveSet SB c).image f := by
  ext x
  rw [moveSet, Finset.mem_biUnion, Finset.mem_union]
  constructor
  · rintro ⟨q, hq, hx⟩
    rw [List.mem_toFinset] at hx
    rcases Finset.mem_union.mp hq with hqA | hqB
    · have hout : ∀ r, f r ≠ q := fun r heq => hdisj r (heq ▸ hSA hqA)
      rw [mu_moveQ_out hout c] at hx
      exact Or.inl (by
        rw [moveSet, Finset.mem_biUnion]
        exact ⟨q, hqA, List.mem_toFinset.mpr hx⟩)
    · rcases Finset.mem_image.mp hqB with ⟨rb, hrb, hfeq⟩
      rw [← hfeq] at hx
      obtain ⟨y, hy, hxy⟩ := (mu_moveQ_image hf hdisj hwf rb c).mp hx
      refine Or.inr (Finset.mem_image.mpr ⟨y, ?_, hxy.symm⟩)
      rw [moveSet, Finset.mem_biUnion]
      exact ⟨rb, hrb, List.mem_toFinset.mpr hy⟩
  · rintro (hx | hx)
    · rw [moveSet, Finset.mem_biUnion] at hx
      obtain ⟨q, hqA, hx⟩ := hx
      have hout : ∀ r, f r ≠ q := fun r heq => hdisj r (heq ▸ hSA hqA)
      refine ⟨q, Finset.mem_union_left _ hqA, ?_⟩
      rw [List.mem_toFinset, mu_moveQ_out hout c]
      exact List.mem_toFinset.mp hx
    · rcases Finset.mem_image.mp hx with ⟨y, hy, hxy⟩
      rw [moveSet, Finset.mem_biUnion] at hy
      obtain ⟨rb, hrb, hy⟩ := hy
      refine ⟨f rb, Finset.mem_union_right _ (Finset.mem_image.mpr ⟨rb, hrb, rfl⟩), ?_⟩
      rw [List.mem_toFinset]
      exact (mu_moveQ_image hf hdisj hwf rb c).mpr ⟨y, List.mem_toFinset.mp hy, hxy.symm⟩

lemma mu_stepSet_decomp (hf : Function.Injective f)
    (hdisj : ∀ r : R, f r ∉ statesOf a) (hwf : WellKeyed b)
    (SA : Finset Q) (hSA : SA ⊆ statesOf a) (SB : Finset R) (c : Nat) :
    (mapped_union a b f).stepSet (SA ∪ SB.image f) c =
      a.stepSet SA c ∪ (b.stepSet SB c).image f := by
  rw [stepSet, mu_moveSet_decomp hf hdisj hwf SA hSA SB c,
    mu_closure_decomp hf hdisj hwf _ (moveSet_subset_statesOf a SA c) _]
  rfl

lemma mu_final_decomp (hf : Function.Injective f)
    (hdisj : ∀ r : R, f r ∉ statesOf a)
    (SA : Finset Q) (hSA : SA ⊆ statesOf a) (SB : Finset R) :
    ((SA ∪ SB.image f) ∩ (mapped_union a b f).finals.toFinset).Nonempty ↔
      (SA ∩ a.finals.toFinset).Nonempty ∨ (SB ∩ b.finals.toFinset).Nonempty := by
  constructor
  · rintro ⟨x, hx⟩
    rw [Finset.mem_inter] at hx
    obtain ⟨hxs, hxf⟩ := hx
    rw [List.mem_toFinset] at hxf
    rw [show (mapped_union a b f).finals = extendSet a.finals (b.finals.map f) from rfl,
      mem_extendSet] at hxf
    rcases Finset.mem_union.mp hxs with hxA | hxB
    · rcases hxf with hxf | hxf
      · exact Or.inl ⟨x, Finset.mem_inter.mpr ⟨hxA, List.mem_toFinset.mpr hxf⟩⟩
      · rcases List.mem_map.mp hxf with ⟨rb, _, hfeq⟩
        exact absurd (hfeq ▸ hSA hxA) (hdisj rb)
    · rcases Finset.mem_image.mp hxB with ⟨rb, hrb, hfeq⟩
      rcases hxf with hxf | hxf
      · exact absurd (hfeq ▸ finals_subset_statesOf hxf : f rb ∈ statesOf a) (hdisj rb)
      · rcases List.mem_map.mp hxf with ⟨rb', hrb', hfeq'⟩
        have : rb' = rb := hf (by rw [hfeq', hfeq])
        subst this
        exact Or.inr ⟨rb', Finset.mem_inter.mpr ⟨hrb, List.mem_toFinset.mpr hrb'⟩⟩
  · rintro (⟨x, hx⟩ | ⟨rb, hrb⟩)
    · rw [Finset.mem_inter] at hx
      refine ⟨x, Finset.mem_inter.mpr ⟨Finset.mem_union_left _ hx.1, ?_⟩⟩
      rw [List.mem_toFinset,
        show (mapped_union a b f).finals = extendSet a.finals (b.finals.map f) from rfl,
        mem_extendSet]
      exact Or.inl (List.mem_toFinset.mp hx.2)
    · rw [Finset.mem_inter] at hrb
      refine ⟨f rb, Finset.mem_inter.mpr
        ⟨Finset.mem_union_right _ (Finset.mem_image.mpr ⟨rb, hrb.1, rfl⟩), ?_⟩⟩
      rw [List.mem_toFinset,
        show (mapped_union a b f).finals = extendSet a.finals (b.finals.map f) from rfl,
        mem_extendSet]
      exact Or.inr (List.mem_map.mpr ⟨rb, List.mem_toFinset.mp hrb.2, rfl⟩)

lemma mu_run (hf : Function.Injective f)
    (hdisj : ∀ r : R, f r ∉ statesOf a) (hwf : WellKeyed b) :
    ∀ (w : List Nat) (SA : Finset Q) (SB : Finset R), SA ⊆ statesOf a →
      (mapped_union a b f).acceptsFrom (SA ∪ SB.image f) w =
        (a.acceptsFrom SA w || b.acceptsFrom SB w) := by
  intro w
  induction w with
  | nil =>
    intro SA SB hSA
    rw [acceptsFrom, acceptsFrom, acceptsFrom]
    simp only [List.foldl_nil]
    rw [Bool.eq_iff_iff]
    simp only [decide_eq_true_eq, Bool.or_eq_true]
    exact mu_final_decomp hf hdisj SA hSA SB
  | cons c w ih =>
    intro SA SB hSA
    rw [acceptsFrom_cons, acceptsFrom_cons, acceptsFrom_cons,
      mu_stepSet_decomp hf hdisj hwf SA hSA SB c]
    exact ih _ _ (stepSet_subset_statesOf a SA c)

/-- C9: for every automaton A over Q, every automaton B over R (with the
BTreeMap key invariants), and every injective renaming f whose image is
disjoint from the states mentioned by A, the automaton A.mapped_union(B, f)
accepts a word iff A accepts it or B accepts it. -/
theorem c9_mapped_union (a : NFA Q) (b : NFA R) (f : R → Q)
    (hf : Function.Injective f) (hdisj : ∀ r : R, f r ∉ statesOf a)
    (hwf : WellKeyed b) (w : List Nat) :
    (a.mapped_union b f).accepts w = (a.accepts w || b.accepts w) := by
  rw [accepts, accepts, accepts, startSet, startSet, startSet]
  have hinit : (mapped_union a b f).initials.toFinset =
      a.initials.toFinset ∪ (b.initials.toFinset).image f := by
    ext x
    rw [List.mem_toFinset,
      show (mapped_union a b f).initials = extendSet a.initials (b.initials.map f) from rfl,
      mem_extendSet, Finset.mem_union, List.mem_toFinset, Finset.mem_image]
    constructor
    · rintro (h | h)
      · exact Or.inl h
      · rcases List.mem_map.mp h with ⟨rb, hrb, hfeq⟩
        exact Or.inr ⟨rb, List.mem_toFinset.mpr hrb, hfeq⟩
    · rintro (h | ⟨rb, hrb, hfeq⟩)
      · exact Or.inl h
      · exact Or.inr (List.mem_map.mpr ⟨rb, List.mem_toFinset.mp hrb, hfeq⟩)
  rw [hinit, mu_closure_decomp hf hdisj hwf _
    (fun x hx => initials_subset_statesOf (List.mem_toFinset.mp hx)) _]
  exact mu_run hf hdisj hwf w _ _
    (closure_subset_statesOf a (fun x hx => initials_subset_statesOf (List.mem_toFinset.mp hx)))

end NFA

/-- A over Fin 4 accepting "a" on states 0, 1. -/
def exUA : NFA (Fin 4) := ⟨[(0, [(Option.some [(97, 97)], [1])]), (1, [])], [0], [1]⟩

/-- B over Fin 2 accepting "b". -/
def exUB : NFA (Fin 2) := ⟨[(0, [(Option.some [(98, 98)], [1])]), (1, [])], [0], [1]⟩

/-- An injective renaming of B's states into the upper half of Fin 4. -/
def exUf (r : Fin 2) : Fin 4 := ⟨r.val + 2, by omega⟩

theorem c9_mapped_union_w :
    (Function.Injective exUf ∧ (∀ r, exUf r ∉ NFA.statesOf exUA) ∧ NFA.WellKeyed exUB)
    ∧ (exUA.mapped_union exUB exUf).accepts [98] =
        (exUA.accepts [98] || exUB.accepts [98]) :=
  ⟨⟨by decide, by decide, ⟨by decide, by decide⟩⟩,
    NFA.c9_mapped_union exUA exUB exUf (by decide) (by decide) ⟨by decide, by decide⟩ [98]⟩

end Ere

namespace Ere

/-- RangeSet::is_empty, semantically: no range of the set is nonempty
(on canonical sets this coincides with the list being empty). -/
def csIsEmpty (s : CharSet) : Bool := !(s.any (fun r => decide (r.1 ≤ r.2)))

lemma csIsEmpty_false_of_mem {c : Nat} {s : CharSet} (h : memCS c s = true) :
    csIsEmpty s = false := by
  rcases memCS_iff.mp h with ⟨r, hr, hin⟩
  rw [inRange_iff] at hin
  rw [csIsEmpty, Bool.not_eq_false', List.any_eq_true]
  exact ⟨r, hr, by simp only [decide_eq_true_eq]; omega⟩

/-- Pointwise correctness of charset_intersection (also proved as part of
the c5 theorem): for a canonical right operand and a token within the code
point range, membership distributes over the intersection. -/
lemma memCS_intersection {la lb : CharSet} {c : Nat}
    (hlb : canonicalChk 0 lb = true) (hc : c ≤ maxScalar) :
    memCS c (charset_intersection la lb) = (memCS c la && memCS c lb) := by
  rw [Bool.eq_iff_iff, charset_intersection, mem_foldl_removeRange, Bool.and_eq_true]
  have hgaps := mem_gapsFrom hc 0 lb hlb
  constructor
  · rintro ⟨h1, h2⟩
    refine ⟨h1, ?_⟩
    cases hmemb : memCS c lb
    · have hmem : memCS c (gapsFrom 0 lb) = true := hgaps.mpr ⟨Nat.zero_le c, hmemb⟩
      rcases memCS_iff.mp hmem with ⟨g, hg, hin⟩
      rw [h2 g hg] at hin
      cases hin
    · rfl
  · rintro ⟨h1, h2⟩
    refine ⟨h1, ?_⟩
    rw [← memCS_false_all]
    cases hmemg : memCS c (gapsFrom 0 lb)
    · rfl
    · have := hgaps.mp hmemg
      rw [h2] at this
      cases this.2

namespace NFA

variable {Q R T : Type} [LinearOrder Q] [StateEnum Q] [Fintype Q]
variable [LinearOrder R] [StateEnum R] [Fintype R]
variable [LinearOrder T] [StateEnum T] [Fintype T]

/-- The pairs pushed on the product worklist when the pair (a, b) is
processed: for matching non-ε labels with nonempty intersection all target
pairs, and for an ε entry of a matched by an ε entry of b all ε target
pairs (one-sided ε moves are dropped). -/
def prodSuccs (A : NFA Q) (B : NFA R) (p : Q × R) : List (Q × R) :=
  (A.transOf p.1).flatMap (fun ea =>
    match ea.1 with
    | Option.some la =>
      (B.transOf p.2).flatMap (fun eb =>
        match eb.1 with
        | Option.some lb =>
          if csIsEmpty (charset_intersection la lb) then []
          else ea.2.flatMap (fun sa => eb.2.map (fun sb => (sa, sb)))
        | Option.none => [])
    | Option.none =>
      ea.2.flatMap (fun sa => (B.epsSucc p.2).map (fun sb => (sa, sb))))

/-- The inner loop of the product transition construction, for one non-ε
entry (la, tgtsA) of the left automaton: for every non-ε entry of the
right state, if the label intersection is nonempty, extend the entry
keyed by the intersection with all renamed target pairs. -/
def prodInnerF (f : Q → R → T) (la : CharSet) (tgtsA : List Q)
    (acc2 : Transitions T) (eb : Label × List R) : Transitions T :=
  match eb.1 with
  | Option.some lb =>
    if csIsEmpty (charset_intersection la lb) then acc2
    else entryUpdate acc2 (Option.some (charset_intersection la lb)) []
      (fun cur => extendSet cur (tgtsA.flatMap (fun sa => eb.2.map (fun sb => f sa sb))))
  | Option.none => acc2

/-- The outer loop of the product transition construction for one
processed pair: non-ε entries of the left state go through the inner
loop; an ε entry of the left state is synchronized with the ε entry of
the right state when one exists. -/
def prodOuterF (B : NFA R) (f : Q → R → T) (b : R)
    (acc : Transitions T) (ea : Label × List Q) : Transitions T :=
  match ea.1 with
  | Option.some la => (B.transOf b).foldl (prodInnerF f la ea.2) acc
  | Option.none =>
    match (B.transOf b).find? (fun e => decide (e.1 = (Option.none : Label))) with
    | Option.some eb =>
      entryUpdate acc (Option.none : Label) []
        (fun cur => extendSet cur (ea.2.flatMap (fun sa => eb.2.map (fun sb => f sa sb))))
    | Option.none => acc

/-- The transition table built for one processed pair (a, b) of the
product (the entry(label).or_default().extend(...) updates of the
source). -/
def prodEntry (A : NFA Q) (B : NFA R) (f : Q → R → T) (a : Q) (b : R) : Transitions T :=
  (A.transOf a).foldl (prodOuterF B f b) []

/-- The initial pairs of the product: the cartesian product of the two
initial-state sets. -/
def prodInit (A : NFA Q) (B : NFA R) : List (Q × R) :=
  A.initials.flatMap (fun a => B.initials.map (fun b => (a, b)))

/-- All state pairs, used to bound the worklist fuel. -/
def prodPairsList (Q R : Type) [StateEnum Q] [StateEnum R] : List (Q × R) :=
  (StateEnum.elems (Q := Q)).flatMap (fun a => (StateEnum.elems (Q := R)).map (fun b => (a, b)))

lemma mem_prodPairsList (p : Q × R) : p ∈ prodPairsList Q R := by
  rw [prodPairsList, List.mem_flatMap]
  exact ⟨p.1, StateEnum.complete p.1,
    List.mem_map.mpr ⟨p.2, StateEnum.complete p.2, rfl⟩⟩

/-- A bound on the number of pairs pushed for one processed pair. -/
def prodE (A : NFA Q) (B : NFA R) : Nat :=
  listMaxN ((prodPairsList Q R).map (fun p => (prodSuccs A B p).length))

lemma prodSuccs_length_le (A : NFA Q) (B : NFA R) (p : Q × R) :
    (prodSuccs A B p).length ≤ prodE A B :=
  le_listMaxN (List.mem_map.mpr ⟨p, mem_prodPairsList p, rfl⟩)

/-- Sufficient fuel for the product worklist. -/
def prodFuel (A : NFA Q) (B : NFA R) (f : Q → R → T) : Nat :=
  crawlWeight ((Finset.univ : Finset (Q × R)).image (fun p => f p.1 p.2)) (prodE A B) ∅
    + (prodInit A B).length + 1

/-- The pairs processed by the product worklist of nfa.rs. -/
def prodStates (A : NFA Q) (B : NFA R) (f : Q → R → T) : List (Q × R) :=
  crawl (prodSuccs A B) (fun p => f p.1 p.2) (prodFuel A B f) ∅ (prodInit A B)

/-- product from nfa.rs: the synchronized product automaton on reachable
state pairs, renamed through f. -/
def product (A : NFA Q) (B : NFA R) (f : Q → R → T) : NFA T :=
  { trans := (prodStates A B f).map (fun p => (f p.1 p.2, prodEntry A B f p.1 p.2))
  , initials := (prodInit A B).map (fun p => f p.1 p.2)
  , finals := ((prodStates A B f).filter
      (fun p => decide (p.1 ∈ A.finals) && decide (p.2 ∈ B.finals))).map
      (fun p => f p.1 p.2) }

/-- An automaton with no ε transitions at all. -/
def EpsFree (A : NFA Q) : Prop :=
  ∀ p ∈ A.trans, ∀ e ∈ p.2, e.1 ≠ (Option.none : Label)

lemma epsFree_epsSucc_nil {A : NFA Q} (hA : EpsFree A) (q : Q) : A.epsSucc q = [] := by
  rw [epsSucc]
  cases hf : (A.transOf q).find? (fun e => decide (e.1 = (Option.none : Label))) with
  | none => rfl
  | some e =>
    have hmem := List.mem_of_find?_eq_some hf
    have hpred := List.find?_some hf
    simp only [decide_eq_true_eq] at hpred
    rcases transOf_cases A q with hcase | hcase
    · rw [hcase] at hmem
      cases hmem
    · exact absurd hpred (hA _ hcase e hmem)

lemma epsSucc_nil_closure {A : NFA Q} (h : ∀ q, A.epsSucc q = []) (S : Finset Q) :
    A.epsClosure S = S := by
  ext x
  rw [mem_epsClosure]
  constructor
  · rintro ⟨s, hs, hreach⟩
    induction hreach with
    | refl => exact hs
    | @tail m y hqb hbc ih =>
      rw [show A.EpsStep m y ↔ y ∈ A.epsSucc m from Iff.rfl, h m] at hbc
      cases hbc
  · intro hx
    exact ⟨x, hx, Relation.ReflTransGen.refl⟩

end NFA

end Ere

namespace Ere

namespace NFA

variable {Q R T : Type} [LinearOrder Q] [StateEnum Q] [Fintype Q]
variable [LinearOrder R] [StateEnum R] [Fintype R]
variable [LinearOrder T] [StateEnum T] [Fintype T]

lemma mem_moveT_cons {c : Nat} {x : T} {e : Label × List T} {rest : Transitions T} :
    x ∈ moveT c (e :: rest) ↔
      (∃ s, e.1 = Option.some s ∧ memCS c s = true ∧ x ∈ e.2) ∨ x ∈ moveT c rest := by
  rw [mem_moveT]
  constructor
  · rintro ⟨e', he', hs⟩
    rcases List.mem_cons.mp he' with rfl | he'
    · exact Or.inl hs
    · exact Or.inr (mem_moveT.mpr ⟨e', he', hs⟩)
  · rintro (⟨s, hs, hm, hx⟩ | h)
    · exact ⟨e, List.mem_cons_self e rest, s, hs, hm, hx⟩
    · rcases mem_moveT.mp h with ⟨e', he', hs⟩
      exact ⟨e', List.mem_cons_of_mem e he', hs⟩

lemma mem_moveT_entryUpdate_some {c : Nat} {x : T} (cs : CharSet) (items : List T) :
    ∀ acc : Transitions T,
      (x ∈ moveT c (entryUpdate acc (Option.some cs) []
          (fun cur => extendSet cur items)) ↔
        x ∈ moveT c acc ∨ (memCS c cs = true ∧ x ∈ items)) := by
  intro acc
  induction acc with
  | nil =>
    rw [entryUpdate, mem_moveT_cons]
    rw [show moveT c ([] : Transitions T) = [] from rfl]
    simp only [List.not_mem_nil, or_false, false_or, Option.some.injEq]
    constructor
    · rintro ⟨s, hs, hm, hx⟩
      subst hs
      rw [mem_extendSet] at hx
      rcases hx with hx | hx
      · cases hx
      · exact ⟨hm, hx⟩
    · rintro ⟨hm, hx⟩
      exact ⟨cs, rfl, hm, mem_extendSet.mpr (Or.inr hx)⟩
  | cons e rest ih =>
    rcases e with ⟨k, v⟩
    rw [entryUpdate]
    by_cases hk : k = Option.some cs
    · rw [if_pos hk]
      subst hk
      rw [mem_moveT_cons, mem_moveT_cons]
      simp only [Option.some.injEq]
      constructor
      · rintro (⟨s, hs, hm, hx⟩ | h)
        · subst hs
          rw [mem_extendSet] at hx
          rcases hx with hx | hx
          · exact Or.inl (Or.inl ⟨cs, rfl, hm, hx⟩)
          · exact Or.inr ⟨hm, hx⟩
        · exact Or.inl (Or.inr h)
      · rintro ((⟨s, hs, hm, hx⟩ | h) | ⟨hm, hx⟩)
        · subst hs
          exact Or.inl ⟨cs, rfl, hm, mem_extendSet.mpr (Or.inl hx)⟩
        · exact Or.inr h
        · exact Or.inl ⟨cs, rfl, hm, mem_extendSet.mpr (Or.inr hx)⟩
    · rw [if_neg hk, mem_moveT_cons, mem_moveT_cons, ih]
      exact or_assoc.symm

lemma mem_moveT_entryUpdate_none {c : Nat} {x : T} (u : List T → List T) :
    ∀ acc : Transitions T,
      (x ∈ moveT c (entryUpdate acc (Option.none : Label) [] u) ↔ x ∈ moveT c acc) := by
  intro acc
  induction acc with
  | nil =>
    rw [entryUpdate, mem_moveT_cons]
    simp
  | cons e rest ih =>
    rcases e with ⟨k, v⟩
    rw [entryUpdate]
    by_cases hk : k = (Option.none : Label)
    · rw [if_pos hk]
      subst hk
      rw [mem_moveT_cons, mem_moveT_cons]
      simp
    · rw [if_neg hk, mem_moveT_cons, mem_moveT_cons, ih]

lemma prod_inner_fold {f : Q → R → T} {c : Nat}
    (hc : c ≤ maxScalar) (la : CharSet) (tgtsA : List Q) :
    ∀ (l : Transitions R),
      (∀ e ∈ l, ∀ cs, e.1 = Option.some cs → canonicalChk 0 cs = true) →
      ∀ (acc : Transitions T) {x : T},
      (x ∈ moveT c (l.foldl (prodInnerF f la tgtsA) acc) ↔
        x ∈ moveT c acc ∨ (memCS c la = true ∧ ∃ eb ∈ l, ∃ lb, eb.1 = Option.some lb ∧
          memCS c lb = true ∧ ∃ sa ∈ tgtsA, ∃ sb ∈ eb.2, x = f sa sb)) := by
  intro l
  induction l with
  | nil =>
    intro _ acc x
    simp
  | cons eb rest ih =>
    intro hcan acc x
    rw [List.foldl_cons]
    have hcan' : ∀ e ∈ rest, ∀ cs, e.1 = Option.some cs → canonicalChk 0 cs = true :=
      fun e he => hcan e (List.mem_cons_of_mem eb he)
    obtain ⟨ebl, ebt⟩ := eb
    cases ebl with
    | none =>
      rw [show prodInnerF f la tgtsA acc ((Option.none : Label), ebt) = acc from rfl]
      rw [ih hcan' acc]
      constructor
      · rintro (h | ⟨hla, eb', heb', hrest⟩)
        · exact Or.inl h
        · exact Or.inr ⟨hla, eb', List.mem_cons_of_mem _ heb', hrest⟩
      · rintro (h | ⟨hla, eb', heb', lb, hlb', hrest⟩)
        · exact Or.inl h
        · rcases List.mem_cons.mp heb' with rfl | heb'
          · cases hlb'
          · exact Or.inr ⟨hla, eb', heb', lb, hlb', hrest⟩
    | some lb =>
      have hcanlb : canonicalChk 0 lb = true :=
        hcan _ (List.mem_cons_self _ rest) lb rfl
      have hmemint : memCS c (charset_intersection la lb) = (memCS c la && memCS c lb) :=
        memCS_intersection hcanlb hc
      rw [show prodInnerF f la tgtsA acc ((Option.some lb : Label), ebt) =
        (if csIsEmpty (charset_intersection la lb) then acc
          else entryUpdate acc (Option.some (charset_intersection la lb)) []
            (fun cur => extendSet cur
              (tgtsA.flatMap (fun sa => ebt.map (fun sb => f sa sb))))) from rfl]
      by_cases hemp : csIsEmpty (charset_intersection la lb)
      · rw [if_pos hemp, ih hcan' acc]
        constructor
        · rintro (h | ⟨hla, eb', heb', hrest⟩)
          · exact Or.inl h
          · exact Or.inr ⟨hla, eb', List.mem_cons_of_mem _ heb', hrest⟩
        · rintro (h | ⟨hla, eb', heb', lb', hlb', hmlb', hrest⟩)
          · exact Or.inl h
          · rcases List.mem_cons.mp heb' with rfl | heb'
            · simp only [Option.some.injEq] at hlb'
              subst hlb'
              have hmm : memCS c (charset_intersection la lb) = true := by
                rw [hmemint, hla, hmlb']
                rfl
              rw [csIsEmpty_false_of_mem hmm] at hemp
              cases hemp
            · exact Or.inr ⟨hla, eb', heb', lb', hlb', hmlb', hrest⟩
      · rw [if_neg hemp, ih hcan']
        rw [mem_moveT_entryUpdate_some]
        constructor
        · rintro ((h | ⟨hmi, hx⟩) | ⟨hla, eb', heb', hrest⟩)
          · exact Or.inl h
          · rw [hmemint, Bool.and_eq_true] at hmi
            rcases List.mem_flatMap.mp hx with ⟨sa, hsa, hx⟩
            rcases List.mem_map.mp hx with ⟨sb, hsb, rfl⟩
            exact Or.inr ⟨hmi.1, (Option.some lb, ebt), List.mem_cons_self _ rest, lb,
              rfl, hmi.2, sa, hsa, sb, hsb, rfl⟩
          · exact Or.inr ⟨hla, eb', List.mem_cons_of_mem _ heb', hrest⟩
        · rintro (h | ⟨hla, eb', heb', lb', hlb', hmlb', sa, hsa, sb, hsb, hxf⟩)
          · exact Or.inl (Or.inl h)
          · rcases List.mem_cons.mp heb' with rfl | heb'
            · simp only [Option.some.injEq] at hlb'
              subst hlb'
              refine Or.inl (Or.inr ⟨?_, ?_⟩)
              · rw [hmemint, hla, hmlb']
                rfl
              · exact List.mem_flatMap.mpr ⟨sa, hsa, List.mem_map.mpr ⟨sb, hsb, hxf.symm⟩⟩
            · exact Or.inr ⟨hla, eb', heb', lb', hlb', hmlb', sa, hsa, sb, hsb, hxf⟩

end NFA

end Ere

namespace Ere

lemma keys_entryUpdate {K α : Type} [DecidableEq K] :
    ∀ (l : List (K × α)) (k : K) (d : α) (u : α → α), ∀ e ∈ entryUpdate l k d u,
      e.1 = k ∨ ∃ e' ∈ l, e.1 = e'.1 := by
  intro l k d u
  induction l with
  | nil =>
    intro e he
    rw [entryUpdate] at he
    rcases List.mem_cons.mp he with rfl | h
    · exact Or.inl rfl
    · cases h
  | cons p rest ih =>
    rcases p with ⟨k0, v⟩
    intro e he
    rw [entryUpdate] at he
    by_cases hk : k0 = k
    · rw [if_pos hk] at he
      rcases List.mem_cons.mp he with rfl | h
      · exact Or.inr ⟨(k0, v), List.mem_cons_self _ _, rfl⟩
      · exact Or.inr ⟨e, List.mem_cons_of_mem _ h, rfl⟩
    · rw [if_neg hk] at he
      rcases List.mem_cons.mp he with rfl | h
      · exact Or.inr ⟨(k0, v), List.mem_cons_self _ _, rfl⟩
      · rcases ih e h with h' | ⟨e', he', heq⟩
        · exact Or.inl h'
        · exact Or.inr ⟨e', List.mem_cons_of_mem _ he', heq⟩

namespace NFA

variable {Q R T : Type} [LinearOrder Q] [StateEnum Q] [Fintype Q]
variable [LinearOrder R] [StateEnum R] [Fintype R]
variable [LinearOrder T] [StateEnum T] [Fintype T]

/-- Every non-ε label of the automaton satisfies the canonical range-set
invariant; this is the invariant the btree-range-map library maintains
for every RangeSet value of the source. -/
def LabelsCanonical (A : NFA Q) : Prop :=
  ∀ p ∈ A.trans, ∀ e ∈ p.2, canonicalChk 0 (e.1.getD []) = true

lemma labelsCanonical_transOf {A : NFA Q} (h : LabelsCanonical A) (q : Q) :
    ∀ e ∈ A.transOf q, ∀ cs, e.1 = Option.some cs → canonicalChk 0 cs = true := by
  intro e he cs hcs
  rcases transOf_cases A q with hc | hc
  · rw [hc] at he
    cases he
  · have hcan := h _ hc e he
    rw [hcs] at hcan
    exact hcan

lemma epsFree_transOf {A : NFA Q} (h : EpsFree A) (q : Q) :
    ∀ e ∈ A.transOf q, e.1 ≠ (Option.none : Label) := by
  intro e he
  rcases transOf_cases A q with hc | hc
  · rw [hc] at he
    cases he
  · exact h _ hc e he

lemma prodInner_keys {f : Q → R → T} {la : CharSet} {tgtsA : List Q} :
    ∀ (l : Transitions R) (acc : Transitions T),
      (∀ e ∈ acc, e.1 ≠ (Option.none : Label)) →
      ∀ e ∈ l.foldl (prodInnerF f la tgtsA) acc, e.1 ≠ (Option.none : Label) := by
  intro l
  induction l with
  | nil =>
    intro acc hacc
    exact hacc
  | cons eb rest ih =>
    intro acc hacc
    rw [List.foldl_cons]
    apply ih
    obtain ⟨ebl, ebt⟩ := eb
    cases ebl with
    | none => exact hacc
    | some lb =>
      rw [show prodInnerF f la tgtsA acc ((Option.some lb : Label), ebt) =
        (if csIsEmpty (charset_intersection la lb) then acc
          else entryUpdate acc (Option.some (charset_intersection la lb)) []
            (fun cur => extendSet cur
              (tgtsA.flatMap (fun sa => ebt.map (fun sb => f sa sb))))) from rfl]
      by_cases hemp : csIsEmpty (charset_intersection la lb)
      · rw [if_pos hemp]
        exact hacc
      · rw [if_neg hemp]
        intro e he
        rcases keys_entryUpdate _ _ _ _ e he with h | ⟨e', he', heq⟩
        · rw [h]
          exact fun hcon => Option.noConfusion hcon
        · rw [heq]
          exact hacc e' he'

lemma prodOuter_keys {B : NFA R} {f : Q → R → T} {b : R} :
    ∀ (l : Transitions Q), (∀ e ∈ l, e.1 ≠ (Option.none : Label)) →
      ∀ (acc : Transitions T), (∀ e ∈ acc, e.1 ≠ (Option.none : Label)) →
      ∀ e ∈ l.foldl (prodOuterF B f b) acc, e.1 ≠ (Option.none : Label) := by
  intro l
  induction l with
  | nil =>
    intro _ acc hacc
    exact hacc
  | cons ea rest ih =>
    intro hl acc hacc
    rw [List.foldl_cons]
    obtain ⟨eal, eat⟩ := ea
    cases eal with
    | none => exact absurd rfl (hl _ (List.mem_cons_self _ _))
    | some la =>
      refine ih (fun e he => hl e (List.mem_cons_of_mem _ he)) _ ?_
      rw [show prodOuterF B f b acc ((Option.some la : Label), eat) =
        (B.transOf b).foldl (prodInnerF f la eat) acc from rfl]
      exact prodInner_keys (B.transOf b) acc hacc

lemma product_epsFree {A : NFA Q} {B : NFA R} {f : Q → R → T} (hA : EpsFree A) :
    EpsFree (A.product B f) := by
  intro p hp e he
  rw [product] at hp
  rcases List.mem_map.mp hp with ⟨q, _, rfl⟩
  exact prodOuter_keys (A.transOf q.1) (epsFree_transOf hA q.1) []
    (fun e he => absurd he (List.not_mem_nil e)) e he

lemma prod_outer_fold {B : NFA R} {f : Q → R → T} {b : R} {c : Nat}
    (hc : c ≤ maxScalar)
    (hcanb : ∀ e ∈ B.transOf b, ∀ cs, e.1 = Option.some cs → canonicalChk 0 cs = true) :
    ∀ (l : Transitions Q), (∀ e ∈ l, e.1 ≠ (Option.none : Label)) →
      ∀ (acc : Transitions T) {x : T},
      (x ∈ moveT c (l.foldl (prodOuterF B f b) acc) ↔
        x ∈ moveT c acc ∨ ∃ ea ∈ l, ∃ la, ea.1 = Option.some la ∧ memCS c la = true ∧
          ∃ eb ∈ B.transOf b, ∃ lb, eb.1 = Option.some lb ∧ memCS c lb = true ∧
          ∃ sa ∈ ea.2, ∃ sb ∈ eb.2, x = f sa sb) := by
  intro l
  induction l with
  | nil =>
    intro _ acc x
    simp
  | cons ea rest ih =>
    intro hl acc x
    rw [List.foldl_cons]
    have hl' : ∀ e ∈ rest, e.1 ≠ (Option.none : Label) :=
      fun e he => hl e (List.mem_cons_of_mem _ he)
    obtain ⟨eal, eat⟩ := ea
    cases eal with
    | none => exact absurd rfl (hl _ (List.mem_cons_self _ _))
    | some la =>
      rw [show prodOuterF B f b acc ((Option.some la : Label), eat) =
        (B.transOf b).foldl (prodInnerF f la eat) acc from rfl]
      rw [ih hl' ((B.transOf b).foldl (prodInnerF f la eat) acc)]
      rw [prod_inner_fold hc la eat (B.transOf b) hcanb acc]
      constructor
      · rintro ((h | ⟨hla, hrest⟩) | ⟨ea', hea', hstuff⟩)
        · exact Or.inl h
        · exact Or.inr ⟨(Option.some la, eat), List.mem_cons_self _ _, la, rfl, hla, hrest⟩
        · exact Or.inr ⟨ea', List.mem_cons_of_mem _ hea', hstuff⟩
      · rintro (h | ⟨ea', hea', la', hla', hmla', hrest⟩)
        · exact Or.inl (Or.inl h)
        · rcases List.mem_cons.mp hea' with rfl | hea'
          · simp only [Option.some.injEq] at hla'
            subst hla'
            exact Or.inl (Or.inr ⟨hmla', hrest⟩)
          · exact Or.inr ⟨ea', hea', la', hla', hmla', hrest⟩

lemma prodEntry_moveT {A : NFA Q} {B : NFA R} {f : Q → R → T} {a : Q} {b : R} {c : Nat}
    (hc : c ≤ maxScalar)
    (hAa : ∀ e ∈ A.transOf a, e.1 ≠ (Option.none : Label))
    (hcanb : ∀ e ∈ B.transOf b, ∀ cs, e.1 = Option.some cs → canonicalChk 0 cs = true)
    {x : T} :
    x ∈ moveT c (prodEntry A B f a b) ↔
      ∃ sa ∈ A.moveQ a c, ∃ sb ∈ B.moveQ b c, x = f sa sb := by
  rw [prodEntry, prod_outer_fold hc hcanb (A.transOf a) hAa []]
  rw [show moveT c ([] : Transitions T) = [] from rfl]
  simp only [List.not_mem_nil, false_or]
  constructor
  · rintro ⟨ea, hea, la, hla, hmla, eb, heb, lb, hlb, hmlb, sa, hsa, sb, hsb, rfl⟩
    exact ⟨sa, mem_moveT.mpr ⟨ea, hea, la, hla, hmla, hsa⟩,
      sb, mem_moveT.mpr ⟨eb, heb, lb, hlb, hmlb, hsb⟩, rfl⟩
  · rintro ⟨sa, hsa, sb, hsb, rfl⟩
    rw [moveQ, mem_moveT] at hsa hsb
    obtain ⟨ea, hea, la, hla, hmla, hsa⟩ := hsa
    obtain ⟨eb, heb, lb, hlb, hmlb, hsb⟩ := hsb
    exact ⟨ea, hea, la, hla, hmla, eb, heb, lb, hlb, hmlb, sa, hsa, sb, hsb, rfl⟩

lemma product_lookup {A : NFA Q} {B : NFA R} {f : Q → R → T} {p : Q × R}
    (hp : p ∈ prodStates A B f) :
    lookupA (A.product B f).trans (f p.1 p.2) =
      Option.some (prodEntry A B f p.1 p.2) := by
  rw [product]
  exact lookupA_map_of_nodup (prodStates A B f) (fun p => f p.1 p.2)
    (crawl_imageNodup (prodSuccs A B) (fun p => f p.1 p.2) (prodFuel A B f) ∅ _)
    (fun p => prodEntry A B f p.1 p.2) p hp

lemma prod_moveQ {A : NFA Q} {B : NFA R} {f : Q → R → T} {p : Q × R}
    (hp : p ∈ prodStates A B f) {c : Nat} (hc : c ≤ maxScalar)
    (hA : EpsFree A) (hcan : LabelsCanonical B) {x : T} :
    x ∈ (A.product B f).moveQ (f p.1 p.2) c ↔
      ∃ sa ∈ A.moveQ p.1 c, ∃ sb ∈ B.moveQ p.2 c, x = f sa sb := by
  rw [moveQ, transOf, getTrans?, product_lookup hp, Option.getD_some]
  exact prodEntry_moveT hc (epsFree_transOf hA p.1) (labelsCanonical_transOf hcan p.2)

lemma mem_prodSuccs_of_move {A : NFA Q} {B : NFA R} {a : Q} {b : R} {c : Nat}
    (hc : c ≤ maxScalar)
    (hcanb : ∀ e ∈ B.transOf b, ∀ cs, e.1 = Option.some cs → canonicalChk 0 cs = true)
    {sa : Q} {sb : R} (hsa : sa ∈ A.moveQ a c) (hsb : sb ∈ B.moveQ b c) :
    (sa, sb) ∈ prodSuccs A B (a, b) := by
  rw [moveQ, mem_moveT] at hsa hsb
  obtain ⟨ea, hea, la, hla, hmla, hsa⟩ := hsa
  obtain ⟨eb, heb, lb, hlb, hmlb, hsb⟩ := hsb
  rw [prodSuccs, List.mem_flatMap]
  refine ⟨ea, hea, ?_⟩
  obtain ⟨eal, eat⟩ := ea
  simp only at hla
  subst hla
  rw [List.mem_flatMap]
  refine ⟨eb, heb, ?_⟩
  obtain ⟨ebl, ebt⟩ := eb
  simp only at hlb
  subst hlb
  have hcs : memCS c (charset_intersection la lb) = true := by
    rw [memCS_intersection (hcanb _ heb lb rfl) hc, hmla, hmlb]
    rfl
  show (sa, sb) ∈ (if csIsEmpty (charset_intersection la lb) then ([] : List (Q × R))
    else eat.flatMap (fun sa => ebt.map (fun sb => (sa, sb))))
  rw [if_neg (by rw [csIsEmpty_false_of_mem hcs]; exact Bool.false_ne_true)]
  exact List.mem_flatMap.mpr ⟨sa, hsa, List.mem_map.mpr ⟨sb, hsb, rfl⟩⟩

lemma prod_hB (f : Q → R → T) :
    ∀ p : Q × R, (fun p : Q × R => f p.1 p.2) p ∈
      Finset.univ.image (fun p : Q × R => f p.1 p.2) :=
  fun p => Finset.mem_image.mpr ⟨p, Finset.mem_univ p, rfl⟩

lemma prod_hInv (A : NFA Q) (B : NFA R) (f : Q → R → T) :
    CrawlInv (Finset.univ.image (fun p : Q × R => f p.1 p.2)) (prodE A B)
      (prodFuel A B f) ∅ (prodInit A B) := by
  simp only [CrawlInv, prodFuel]
  omega

lemma prod_step_states {A : NFA Q} {B : NFA R} {f : Q → R → T}
    (hf : Function.Injective (fun p : Q × R => f p.1 p.2))
    (hcan : LabelsCanonical B)
    {SA : Finset Q} {SB : Finset R}
    (hmem : ∀ a ∈ SA, ∀ b ∈ SB, (a, b) ∈ prodStates A B f)
    {c : Nat} (hc : c ≤ maxScalar) :
    ∀ a' ∈ A.moveSet SA c, ∀ b' ∈ B.moveSet SB c, (a', b') ∈ prodStates A B f := by
  intro a' ha' b' hb'
  rcases Finset.mem_biUnion.mp ha' with ⟨a, ha, ha'⟩
  rcases Finset.mem_biUnion.mp hb' with ⟨b, hb, hb'⟩
  rw [List.mem_toFinset] at ha' hb'
  have hsucc : (a', b') ∈ prodSuccs A B (a, b) :=
    mem_prodSuccs_of_move hc (labelsCanonical_transOf hcan b) ha' hb'
  rcases crawl_closed (prodSuccs A B) (fun p => f p.1 p.2) hf (prod_hB f)
      (prodSuccs_length_le A B) (prodFuel A B f) ∅ (prodInit A B) (prod_hInv A B f)
      (a, b) (hmem a ha b hb) (a', b') hsucc with h | h
  · exact absurd h (Finset.not_mem_empty _)
  · exact h

lemma prod_init_states {A : NFA Q} {B : NFA R} {f : Q → R → T}
    (hf : Function.Injective (fun p : Q × R => f p.1 p.2)) :
    ∀ p ∈ prodInit A B, p ∈ prodStates A B f := by
  intro p hp
  rcases crawl_stack_mem (prodSuccs A B) (fun p => f p.1 p.2) hf (prod_hB f)
      (prodSuccs_length_le A B) (prodFuel A B f) ∅ (prodInit A B) (prod_hInv A B f)
      p hp with h | h
  · exact absurd h (Finset.not_mem_empty _)
  · exact h

lemma prod_initials_image {A : NFA Q} {B : NFA R} {f : Q → R → T} :
    (A.product B f).initials.toFinset =
      (A.initials.toFinset ×ˢ B.initials.toFinset).image (fun p => f p.1 p.2) := by
  ext t
  rw [product]
  simp only [List.mem_toFinset, List.mem_map, Finset.mem_image, Finset.mem_product,
    List.mem_toFinset, prodInit, List.mem_flatMap]
  constructor
  · rintro ⟨p, ⟨a, ha, b, hb, rfl⟩, rfl⟩
    exact ⟨(a, b), ⟨ha, hb⟩, rfl⟩
  · rintro ⟨p, ⟨ha, hb⟩, rfl⟩
    exact ⟨p, ⟨p.1, ha, p.2, hb, rfl⟩, rfl⟩

lemma prod_moveSet {A : NFA Q} {B : NFA R} {f : Q → R → T}
    (hA : EpsFree A) (hcan : LabelsCanonical B)
    {SA : Finset Q} {SB : Finset R}
    (hmem : ∀ a ∈ SA, ∀ b ∈ SB, (a, b) ∈ prodStates A B f)
    {c : Nat} (hc : c ≤ maxScalar) :
    (A.product B f).moveSet ((SA ×ˢ SB).image (fun p => f p.1 p.2)) c =
      ((A.moveSet SA c) ×ˢ (B.moveSet SB c)).image (fun p => f p.1 p.2) := by
  ext x
  rw [moveSet, Finset.mem_biUnion]
  constructor
  · rintro ⟨t, ht, hx⟩
    rcases Finset.mem_image.mp ht with ⟨p, hp, rfl⟩
    rcases Finset.mem_product.mp hp with ⟨hpa, hpb⟩
    rw [List.mem_toFinset] at hx
    rcases (prod_moveQ (hmem _ hpa _ hpb) hc hA hcan).mp hx with ⟨sa, hsa, sb, hsb, rfl⟩
    refine Finset.mem_image.mpr ⟨(sa, sb), Finset.mem_product.mpr ⟨?_, ?_⟩, rfl⟩
    · exact Finset.mem_biUnion.mpr ⟨p.1, hpa, List.mem_toFinset.mpr hsa⟩
    · exact Finset.mem_biUnion.mpr ⟨p.2, hpb, List.mem_toFinset.mpr hsb⟩
  · intro hx
    rcases Finset.mem_image.mp hx with ⟨s, hs, rfl⟩
    rcases Finset.mem_product.mp hs with ⟨hsa, hsb⟩
    rcases Finset.mem_biUnion.mp hsa with ⟨a, ha, hsa'⟩
    rcases Finset.mem_biUnion.mp hsb with ⟨b, hb, hsb'⟩
    rw [List.mem_toFinset] at hsa' hsb'
    refine ⟨f a b, Finset.mem_image.mpr ⟨(a, b), Finset.mem_product.mpr ⟨ha, hb⟩, rfl⟩, ?_⟩
    rw [List.mem_toFinset]
    exact (prod_moveQ (hmem _ ha _ hb) hc hA hcan).mpr ⟨s.1, hsa', s.2, hsb', rfl⟩

lemma prod_run {A : NFA Q} {B : NFA R} {f : Q → R → T}
    (hf : Function.Injective (fun p : Q × R => f p.1 p.2))
    (hA : EpsFree A) (hB : EpsFree B) (hcan : LabelsCanonical B) :
    ∀ (w : List Nat), (∀ c ∈ w, c ≤ maxScalar) →
      ∀ (SA : Finset Q) (SB : Finset R),
      (∀ a ∈ SA, ∀ b ∈ SB, (a, b) ∈ prodStates A B f) →
      (A.product B f).acceptsFrom ((SA ×ˢ SB).image (fun p => f p.1 p.2)) w =
        (A.acceptsFrom SA w && B.acceptsFrom SB w) := by
  intro w
  induction w with
  | nil =>
    intro _ SA SB hmem
    rw [Bool.eq_iff_iff, Bool.and_eq_true, acceptsFrom_nil, acceptsFrom_nil,
      acceptsFrom_nil]
    constructor
    · rintro ⟨t, ht⟩
      rcases Finset.mem_inter.mp ht with ⟨htI, htF⟩
      rcases Finset.mem_image.mp htI with ⟨p, hp, rfl⟩
      rcases Finset.mem_product.mp hp with ⟨hpa, hpb⟩
      rw [List.mem_toFinset, product] at htF
      simp only [List.mem_map, List.mem_filter, Bool.and_eq_true, decide_eq_true_eq] at htF
      rcases htF with ⟨p', ⟨_, h1, h2⟩, heq⟩
      have hpp : p' = p := hf heq
      subst hpp
      constructor
      · exact ⟨p'.1, Finset.mem_inter.mpr ⟨hpa, List.mem_toFinset.mpr h1⟩⟩
      · exact ⟨p'.2, Finset.mem_inter.mpr ⟨hpb, List.mem_toFinset.mpr h2⟩⟩
    · rintro ⟨⟨a, ha⟩, ⟨b, hb⟩⟩
      rcases Finset.mem_inter.mp ha with ⟨haS, haF⟩
      rcases Finset.mem_inter.mp hb with ⟨hbS, hbF⟩
      refine ⟨f a b, Finset.mem_inter.mpr ⟨?_, ?_⟩⟩
      · exact Finset.mem_image.mpr ⟨(a, b), Finset.mem_product.mpr ⟨haS, hbS⟩, rfl⟩
      · rw [List.mem_toFinset, product]
        simp only [List.mem_map, List.mem_filter, Bool.and_eq_true, decide_eq_true_eq]
        exact ⟨(a, b), ⟨hmem a haS b hbS, List.mem_toFinset.mp haF,
          List.mem_toFinset.mp hbF⟩, rfl⟩
  | cons c w ih =>
    intro hw SA SB hmem
    have hc : c ≤ maxScalar := hw c (List.mem_cons_self c w)
    have hw' : ∀ d ∈ w, d ≤ maxScalar := fun d hd => hw d (List.mem_cons_of_mem c hd)
    rw [acceptsFrom_cons, acceptsFrom_cons, acceptsFrom_cons]
    have hstepP : (A.product B f).stepSet ((SA ×ˢ SB).image (fun p => f p.1 p.2)) c =
        ((A.moveSet SA c) ×ˢ (B.moveSet SB c)).image (fun p => f p.1 p.2) := by
      rw [stepSet, epsSucc_nil_closure (epsFree_epsSucc_nil (product_epsFree hA)),
        prod_moveSet hA hcan hmem hc]
    have hstepA : A.stepSet SA c = A.moveSet SA c := by
      rw [stepSet, epsSucc_nil_closure (epsFree_epsSucc_nil hA)]
    have hstepB : B.stepSet SB c = B.moveSet SB c := by
      rw [stepSet, epsSucc_nil_closure (epsFree_epsSucc_nil hB)]
    rw [hstepP, hstepA, hstepB]
    exact ih hw' _ _ (prod_step_states hf hcan hmem hc)

/-- C4 amended: for ε-free automata A and B (no one-sided ε moves can
exist because no ε moves exist at all), an injective pairing function f,
canonical labels on the right operand, and a word of in-range code
points, the product automaton accepts the word exactly when both A and B
accept it, and its final states are exactly the f-images of the
reachable pairs whose two components are final in their automata.  The
claim's weaker premise — ε moves of reachable pairs matched on both
sides — does not suffice, see the counterexample. -/
theorem c4_product (A : NFA Q) (B : NFA R) (f : Q → R → T)
    (hf : Function.Injective (fun p : Q × R => f p.1 p.2))
    (hA : EpsFree A) (hB : EpsFree B) (hcan : LabelsCanonical B)
    (w : List Nat) (hw : ∀ c ∈ w, c ≤ maxScalar) :
    (A.product B f).accepts w = (A.accepts w && B.accepts w)
    ∧ ∀ t, t ∈ (A.product B f).finals ↔
        ∃ p ∈ prodStates A B f, p.1 ∈ A.finals ∧ p.2 ∈ B.finals ∧ t = f p.1 p.2 := by
  constructor
  · rw [accepts, accepts, accepts, startSet, startSet, startSet,
      epsSucc_nil_closure (epsFree_epsSucc_nil (product_epsFree hA)),
      epsSucc_nil_closure (epsFree_epsSucc_nil hA),
      epsSucc_nil_closure (epsFree_epsSucc_nil hB), prod_initials_image]
    refine prod_run hf hA hB hcan w hw _ _ ?_
    intro a ha b hb
    refine prod_init_states hf _ ?_
    rw [prodInit, List.mem_flatMap]
    exact ⟨a, List.mem_toFinset.mp ha, List.mem_map.mpr ⟨b, List.mem_toFinset.mp hb, rfl⟩⟩
  · intro t
    rw [product]
    simp only [List.mem_map, List.mem_filter, Bool.and_eq_true, decide_eq_true_eq]
    constructor
    · rintro ⟨p, ⟨hp, h1, h2⟩, rfl⟩
      exact ⟨p, hp, h1, h2, rfl⟩
    · rintro ⟨p, hp, h1, h2, rfl⟩
      exact ⟨p, ⟨hp, h1, h2⟩, rfl⟩

end NFA

end Ere

namespace Ere

/-- Counterexample automaton A for C4: states 0 (initial), 1, 2 (final);
an ε move 0 → 1, plus 0 --{a}--> 2 and 1 --{b}--> 2, so A accepts both
"a" and "b". -/
def exPA : NFA (Fin 3) :=
  ⟨[(0, [(Option.none, [1]), (Option.some [(97, 97)], [2])]),
    (1, [(Option.some [(98, 98)], [2])]), (2, [])], [0], [2]⟩

/-- Counterexample automaton B for C4: the mirror image of exPA, with the
letters swapped (0 --{b}--> 2 and 1 --{a}--> 2 after the ε move 0 → 1),
so B also accepts both "a" and "b". -/
def exPB : NFA (Fin 3) :=
  ⟨[(0, [(Option.none, [1]), (Option.some [(98, 98)], [2])]),
    (1, [(Option.some [(97, 97)], [2])]), (2, [])], [0], [2]⟩

/-- An injective pairing of two Fin 3 states into Fin 9. -/
def exPf (a b : Fin 3) : Fin 9 := ⟨a.val * 3 + b.val, by omega⟩

/-- C4 counterexample: exPA and exPB satisfy the claim's premise — at
every reachable product pair the two components either both have an ε
move or neither does (no one-sided ε moves) — and the pairing is
injective, yet the product rejects "a" although both automata accept it:
the synchronized ε stepping of the source cannot let one side use its ε
move while the other side consumes a token hers was not meant for. -/
theorem c4_counterexample :
    (∀ p ∈ NFA.prodStates exPA exPB exPf,
        (exPA.epsSucc p.1 = [] ↔ exPB.epsSucc p.2 = []))
    ∧ Function.Injective (fun p : Fin 3 × Fin 3 => exPf p.1 p.2)
    ∧ (exPA.product exPB exPf).accepts [97] = false
    ∧ exPA.accepts [97] = true ∧ exPB.accepts [97] = true := by decide

/-- Witness automaton A: a one-state loop on the letter a, accepting a*. -/
def wPA : NFA (Fin 1) := ⟨[(0, [(Option.some [(97, 97)], [0])])], [0], [0]⟩

/-- Witness automaton B: a one-state loop on the range a-b, accepting
all words over it. -/
def wPB : NFA (Fin 1) := ⟨[(0, [(Option.some [(97, 98)], [0])])], [0], [0]⟩

/-- The unique pairing into Fin 1. -/
def wPf (a b : Fin 1) : Fin 1 := 0

theorem c4_product_w :
    (Function.Injective (fun p : Fin 1 × Fin 1 => wPf p.1 p.2)
      ∧ NFA.EpsFree wPA ∧ NFA.EpsFree wPB ∧ NFA.LabelsCanonical wPB
      ∧ ∀ c ∈ [97], c ≤ maxScalar)
    ∧ ((wPA.product wPB wPf).accepts [97] = (wPA.accepts [97] && wPB.accepts [97])
      ∧ ∀ t, t ∈ (wPA.product wPB wPf).finals ↔
          ∃ p ∈ NFA.prodStates wPA wPB wPf,
            p.1 ∈ wPA.finals ∧ p.2 ∈ wPB.finals ∧ t = wPf p.1 p.2) :=
  ⟨⟨by decide, by unfold NFA.EpsFree; decide, by unfold NFA.EpsFree; decide,
      by unfold NFA.LabelsCanonical; decide, by decide⟩,
    NFA.c4_product wPA wPB wPf (by decide) (by unfold NFA.EpsFree; decide)
      (by unfold NFA.EpsFree; decide) (by unfold NFA.LabelsCanonical; decide)
      [97] (by decide)⟩

end Ere

namespace Ere

namespace NFA

variable {Q : Type} [LinearOrder Q]

/-- add from nfa.rs: ensure the target state exists, then
transitions.entry(source).or_default().entry(label).or_default()
.insert(target). -/
def add (n : NFA Q) (source : Q) (label : Label) (target : Q) : NFA Q :=
  let n1 := n.add_state target
  { n1 with trans :=
      (entryUpdate n1.trans source []
        (fun ts => entryUpdate ts label [] (fun tgts => insertSet target tgts))) }

/-- add_initial_state from nfa.rs: BTreeSet::insert on the initial-state
set, returning whether the state was new. -/
def add_initial_state (n : NFA Q) (q : Q) : Bool × NFA Q :=
  (decide (q ∉ n.initials), { n with initials := insertSet q n.initials })

/-- add_final_state from nfa.rs: BTreeSet::insert on the final-state set,
returning whether the state was new. -/
def add_final_state (n : NFA Q) (q : Q) : Bool × NFA Q :=
  (decide (q ∉ n.finals), { n with finals := insertSet q n.finals })

end NFA

namespace Old

variable {Q R T : Type} [LinearOrder Q] [StateEnum Q] [Fintype Q]
variable [LinearOrder R] [StateEnum R] [Fintype R]
variable [LinearOrder T] [StateEnum T] [Fintype T]

/-- declare_state from the older copy src/src/automaton/mod.rs:
transitions.entry(q).or_default(). -/
def declare_state (n : NFA Q) (q : Q) : NFA Q :=
  match lookupA n.trans q with
  | Option.some _ => n
  | Option.none => { n with trans := n.trans ++ [(q, [])] }

/-- add from the older copy: declare the target state, then
transitions.entry(source).or_default().entry(label).or_default()
.insert(target). -/
def add (n : NFA Q) (source : Q) (label : Label) (target : Q) : NFA Q :=
  let n1 := declare_state n target
  { n1 with trans :=
      (entryUpdate n1.trans source []
        (fun ts => entryUpdate ts label [] (fun tgts => insertSet target tgts))) }

/-- add_initial_state from the older copy. -/
def add_initial_state (n : NFA Q) (q : Q) : Bool × NFA Q :=
  (decide (q ∉ n.initials), { n with initials := insertSet q n.initials })

/-- add_final_state from the older copy. -/
def add_final_state (n : NFA Q) (q : Q) : Bool × NFA Q :=
  (decide (q ∉ n.finals), { n with finals := insertSet q n.finals })

/-- The DFS of recognizes_empty from the older copy (the same
pop/insert/final-check/ε-push loop). -/
def recEmptyDFS (n : NFA Q) : Nat → Finset Q → List Q → Bool
  | 0, _, _ => false
  | _ + 1, _, [] => false
  | fuel + 1, visited, q :: stack =>
    if q ∈ visited then recEmptyDFS n fuel visited stack
    else if q ∈ n.finals then true
    else recEmptyDFS n fuel (insert q visited) (n.epsSucc q ++ stack)

/-- recognizes_empty from the older copy. -/
def recognizes_empty (n : NFA Q) : Bool :=
  recEmptyDFS n (n.closureFuel n.initials.length) ∅ n.initials

/-- The walking loop of to_const from the older copy (loop/match instead
of while-let, with identical break conditions), fuelled like
toSingletonLoop. -/
def toConstLoop (n : NFA Q) : Nat → Q → List Nat → Option (Option (List Nat))
  | 0, _, _ => Option.none
  | fuel + 1, q, acc =>
    match n.getTrans? q with
    | Option.none => Option.some (Option.some acc)
    | Option.some ts =>
      if ts.length > 1 then Option.some Option.none
      else
        match ts.head? with
        | Option.none => Option.some (Option.some acc)
        | Option.some e =>
          if e.2.length > 1 then Option.some Option.none
          else
            match e.2.head? with
            | Option.none => Option.some (Option.some acc)
            | Option.some t =>
              match e.1 with
              | Option.some range =>
                if csSize range = 1 then toConstLoop n fuel t (acc ++ [csFirst range])
                else Option.some Option.none
              | Option.none => Option.some Option.none

/-- to_const from the older copy (fuelled). -/
def to_const (n : NFA Q) (fuel : Nat) : Option (Option (List Nat)) :=
  if n.initials.length > 1 then Option.some Option.none
  else
    match n.initials.head? with
    | Option.none => Option.some (Option.some [])
    | Option.some q => toConstLoop n fuel q []

/-- determinize from the older copy (its body is line for line the one of
nfa.rs, building on the same modulo_epsilon_state and
determinize_transitions_for loops). -/
def determinize (n : NFA Q) (f : Finset Q → R) : DFA R :=
  { initial := f (n.epsClosure n.initials.toFinset)
  , finals := (((NFA.detStates n f).filter
      (fun S => decide ((S ∩ n.finals.toFinset).Nonempty))).map f).toFinset
  , table := (NFA.detStates n f).map
      (fun S => (f S, fun c => (NFA.detStep? n S c).map f)) }

/-- mapped_union from the older copy. -/
def mapped_union (a : NFA Q) (b : NFA R) (f : R → Q) : NFA Q :=
  { trans := b.trans.foldl
      (fun acc p => entryUpdate acc (f p.1) []
        (fun cur => NFA.mergeTransEntry f cur p.2)) a.trans
  , initials := extendSet a.initials (b.initials.map f)
  , finals := extendSet a.finals (b.finals.map f) }

/-- product from the older copy. -/
def product (A : NFA Q) (B : NFA R) (f : Q → R → T) : NFA T :=
  { trans := (NFA.prodStates A B f).map
      (fun p => (f p.1 p.2, NFA.prodEntry A B f p.1 p.2))
  , initials := (NFA.prodInit A B).map (fun p => f p.1 p.2)
  , finals := ((NFA.prodStates A B f).filter
      (fun p => decide (p.1 ∈ A.finals) && decide (p.2 ∈ B.finals))).map
      (fun p => f p.1 p.2) }

lemma recEmptyDFS_eq (n : NFA Q) :
    ∀ (fuel : Nat) (v : Finset Q) (s : List Q),
      Old.recEmptyDFS n fuel v s = NFA.recEmptyDFS n fuel v s := by
  intro fuel
  induction fuel with
  | zero =>
    intro v s
    rfl
  | succ fuel ih =>
    intro v s
    cases s with
    | nil => rfl
    | cons q rest =>
      rw [Old.recEmptyDFS, NFA.recEmptyDFS]
      by_cases hq : q ∈ v
      · simp only [if_pos hq]
        exact ih v rest
      · simp only [if_neg hq]
        by_cases hf : q ∈ n.finals
        · simp only [if_pos hf]
        · simp only [if_neg hf]
          exact ih _ _

lemma toConstLoop_eq (n : NFA Q) :
    ∀ (fuel : Nat) (q : Q) (acc : List Nat),
      Old.toConstLoop n fuel q acc = NFA.toSingletonLoop n fuel q acc := by
  intro fuel
  induction fuel with
  | zero =>
    intro q acc
    rfl
  | succ fuel ih =>
    intro q acc
    rw [Old.toConstLoop, NFA.toSingletonLoop]
    cases n.getTrans? q with
    | none => rfl
    | some ts =>
      by_cases hlen : ts.length > 1
      · simp only [if_pos hlen]
      · simp only [if_neg hlen]
        cases ts.head? with
        | none => rfl
        | some e =>
          by_cases hl2 : e.2.length > 1
          · simp only [if_pos hl2]
          · simp only [if_neg hl2]
            cases e.2.head? with
            | none => rfl
            | some t =>
              cases e.1 with
              | none => rfl
              | some range =>
                by_cases hsz : csSize range = 1
                · simp only [if_pos hsz]
                  exact ih t (acc ++ [csFirst range])
                · simp only [if_neg hsz]

end Old

/-- C6: the older module copy src/src/automaton/mod.rs is behaviorally
identical to src/crates/automata/src/nfa.rs: on every automaton value
each operation defined in both copies — declare_state/add_state, add,
add_initial_state, add_final_state, recognizes_empty, to_const/
to_singleton (at every fuel, so divergence included), determinize,
mapped_union and product — computes the same result. -/
theorem c6_duplicate_modules {Q R T : Type}
    [LinearOrder Q] [StateEnum Q] [Fintype Q]
    [LinearOrder R] [StateEnum R] [Fintype R]
    [LinearOrder T] [StateEnum T] [Fintype T] :
    (∀ (n : NFA Q) (q : Q), Old.declare_state n q = NFA.add_state n q)
    ∧ (∀ (n : NFA Q) (s : Q) (l : Label) (t : Q), Old.add n s l t = NFA.add n s l t)
    ∧ (∀ (n : NFA Q) (q : Q), Old.add_initial_state n q = NFA.add_initial_state n q)
    ∧ (∀ (n : NFA Q) (q : Q), Old.add_final_state n q = NFA.add_final_state n q)
    ∧ (∀ n : NFA Q, Old.recognizes_empty n = NFA.recognizes_empty n)
    ∧ (∀ (n : NFA Q) (fuel : Nat), Old.to_const n fuel = NFA.to_singleton n fuel)
    ∧ (∀ (n : NFA Q) (f : Finset Q → R), Old.determinize n f = NFA.determinize n f)
    ∧ (∀ (a : NFA Q) (b : NFA R) (f : R → Q),
        Old.mapped_union a b f = NFA.mapped_union a b f)
    ∧ (∀ (A : NFA Q) (B : NFA R) (f : Q → R → T),
        Old.product A B f = NFA.product A B f) := by
  refine ⟨fun n q => rfl, fun n s l t => rfl, fun n q => rfl, fun n q => rfl,
    fun n => Old.recEmptyDFS_eq n _ _ _, fun n fuel => ?_, fun n f => rfl,
    fun a b f => rfl, fun A B f => rfl⟩
  rw [Old.to_const, NFA.to_singleton]
  by_cases hlen : n.initials.length > 1
  · simp only [if_pos hlen]
  · simp only [if_neg hlen]
    cases n.initials.head? with
    | none => rfl
    | some q => exact Old.toConstLoop_eq n fuel q []

end Ere
